import Mathlib

/-!
Verification development for the ABNT DOCX formatter (src/abnt.py).

The program mutates an in-memory DOCX document (python-docx / lxml tree).
We shallowly embed the document state:

* Python strings (paragraph text, style names) are `List Char`;
  `tok in s` is `hasTok tok s` (substring test) and
  `s.replace(tok, '')` is `removeTok tok s` (leftmost, non-overlapping,
  scanning resumes after each removed occurrence, exactly as CPython does).
* python-docx lengths are EMU rationals: `Cm x = x * 360000`,
  `Pt x = x * 12700`.
* A paragraph's formatting record (`paragraph_format` plus `alignment`)
  is `ParaFormat`; unset properties are `none`.
* The document body is an ordered list of block elements: paragraph,
  table, or other element (`Block`); `doc.paragraphs` is the in-order
  projection `parasOf`, `doc.tables` the projection `tablesOf`.
* Table row properties `<w:cantSplit/>` / `<w:tblHeader/>` are appended,
  never deduplicated, by the code, so a row records the NUMBER of such
  children (`Row.cantSplit`, `Row.tblHeader`); "property set" means the
  count is positive.
* The style registry `doc.styles` is an association list keyed by style
  name; `apply_long_quote_style` writes the font size of the *style*
  referenced by a paragraph, which we model as an update of that
  registry entry.
-/

namespace ABNT

open List

/-! ### Python string primitives on `List Char` -/

/-- Test for Python `tok in s` (substring containment). -/
def hasTok (tok s : List Char) : Bool := decide (tok <:+: s)

/-- Semantics of Python `s.replace(tok, '')`: remove every occurrence of `tok`,
scanning left to right, resuming after each removed occurrence.
(For the empty token CPython would insert nothing while we keep `s`;
all tokens used by the program are nonempty.) -/
def removeTok (tok : List Char) : List Char → List Char
  | [] => []
  | c :: rest =>
    if tok.isPrefixOf (c :: rest) ∧ tok ≠ [] then
      removeTok tok (List.drop (tok.length - 1) rest)
    else
      c :: removeTok tok rest
termination_by s => s.length
decreasing_by
  · simp only [List.length_cons, List.length_drop]
    omega
  · simp only [List.length_cons]
    omega

theorem removeTok_nil (tok : List Char) : removeTok tok [] = [] := by
  rw [removeTok]

theorem removeTok_cons_pos (tok : List Char) (c : Char) (rest : List Char)
    (h : tok.isPrefixOf (c :: rest)) (h2 : tok ≠ []) :
    removeTok tok (c :: rest) = removeTok tok (List.drop (tok.length - 1) rest) := by
  rw [removeTok]
  simp [h, h2]

theorem removeTok_cons_neg (tok : List Char) (c : Char) (rest : List Char)
    (h : ¬ (tok.isPrefixOf (c :: rest) = true ∧ tok ≠ [])) :
    removeTok tok (c :: rest) = c :: removeTok tok rest := by
  rw [removeTok]
  split
  · exact absurd ‹_› h
  · rfl

/-- Bridge from the boolean prefix test to the `<+:` relation. -/
theorem prefixOfEq {l₁ l₂ : List Char} : l₁.isPrefixOf l₂ = true ↔ l₁ <+: l₂ :=
  isPrefixOf_iff_prefix

theorem hasTok_eq_true {tok s : List Char} : hasTok tok s = true ↔ tok <:+: s := by
  simp [hasTok]

theorem hasTok_eq_false {tok s : List Char} : hasTok tok s = false ↔ ¬ tok <:+: s := by
  simp [hasTok]

/-- Removing a token that does not occur leaves the string unchanged. -/
theorem removeTok_eq_of_no_occurrence (tok : List Char) :
    ∀ s : List Char, ¬ tok <:+: s → removeTok tok s = s := by
  intro s
  induction s with
  | nil => intro _; exact removeTok_nil tok
  | cons c rest ih =>
    intro h
    have hp : ¬ tok.isPrefixOf (c :: rest) = true := by
      intro hp
      exact h (List.IsPrefix.isInfix (prefixOfEq.mp hp))
    rw [removeTok_cons_neg tok c rest (by tauto)]
    rw [ih (fun hi => h (infix_cons hi))]

/-- A token is borderless when no nonempty proper prefix of it is also a
suffix of it. The four marker tokens of the program are borderless, which
rules out occurrences that straddle a token boundary. -/
def Borderless (tok : List Char) : Prop :=
  ∀ w : List Char, w <+: tok → w <:+ tok → w = [] ∨ w = tok

theorem borderless_of_take_drop (tok : List Char)
    (h : ∀ k, k < tok.length → 0 < k →
      List.take k tok ≠ List.drop (tok.length - k) tok) :
    Borderless tok := by
  intro w hp hs
  rcases Nat.lt_or_ge w.length tok.length with hlt | hge
  · rcases Nat.eq_zero_or_pos w.length with hz | hpos
    · exact Or.inl (List.length_eq_zero.mp hz)
    · exfalso
      have hw1 : w = List.take w.length tok := prefix_iff_eq_take.mp hp
      have hw2 : w = List.drop (tok.length - w.length) tok := suffix_iff_eq_drop.mp hs
      exact h w.length hlt hpos (hw1 ▸ hw2 ▸ rfl)
  · have hle : tok.length ≤ w.length := hge
    have hlen : w.length = tok.length :=
      Nat.le_antisymm (List.IsPrefix.length_le hp) hle
    exact Or.inr (List.IsPrefix.eq_of_length hp hlen)

/-- Removing a borderless token from `t0 ++ tok ++ r`, where `tok` does not
occur in `t0`, removes this occurrence and continues in `r`. This captures
one step of Python `replace` scanning. -/
theorem removeTok_append (tok : List Char) (hb : Borderless tok) (hne : tok ≠ []) :
    ∀ t0 r : List Char, ¬ tok <:+: t0 →
      removeTok tok (t0 ++ (tok ++ r)) = t0 ++ removeTok tok r := by
  intro t0
  induction t0 with
  | nil =>
    intro r _
    obtain ⟨c, tok', rfl⟩ := List.exists_cons_of_ne_nil hne
    have hpre : (c :: tok').isPrefixOf (c :: (tok' ++ r)) = true := by
      refine prefixOfEq.mpr ?_
      exact ⟨r, by simp⟩
    simp only [List.nil_append, List.cons_append]
    rw [removeTok_cons_pos (c :: tok') c (tok' ++ r) hpre hne]
    simp only [List.length_cons, Nat.add_sub_cancel]
    rw [List.drop_left]
  | cons a t0' ih =>
    intro r h0
    have hnotpre : ¬ tok.isPrefixOf (a :: (t0' ++ (tok ++ r))) = true := by
      intro hpre
      have hp : tok <+: (a :: t0') ++ (tok ++ r) := by
        have h := prefixOfEq.mp hpre
        simpa using h
      rcases Nat.le_total tok.length (a :: t0').length with hle | hge
      · have hp2 : (a :: t0') <+: (a :: t0') ++ (tok ++ r) := prefix_append _ _
        have hptok : tok <+: (a :: t0') := prefix_of_prefix_length_le hp hp2 hle
        exact h0 (List.IsPrefix.isInfix hptok)
      · have hpA : (a :: t0') <+: (a :: t0') ++ (tok ++ r) := prefix_append _ _
        have hAtok : (a :: t0') <+: tok :=
          prefix_of_prefix_length_le hpA hp hge
        obtain ⟨w, hw⟩ := hAtok
        have hwsuf : w <:+ tok := ⟨a :: t0', hw⟩
        have hwpre : w <+: tok := by
          obtain ⟨t, ht⟩ := hp
          have ht3 : (a :: t0') ++ (w ++ t) = (a :: t0') ++ (tok ++ r) := by
            rw [← List.append_assoc, hw]
            exact ht
          have ht2 : w ++ t = tok ++ r := List.append_cancel_left ht3
          have hwr : w <+: tok ++ r := ⟨t, ht2⟩
          have hlenw : w.length ≤ tok.length := by
            have hl := congrArg List.length hw
            simp only [List.length_append] at hl
            omega
          exact prefix_of_prefix_length_le hwr (prefix_append _ _) hlenw
        rcases hb w hwpre hwsuf with hwnil | hwtok
        · subst hwnil
          rw [List.append_nil] at hw
          exact h0 (hw ▸ infix_refl (a :: t0'))
        · subst hwtok
          have hl := congrArg List.length hw
          simp only [List.length_append, List.length_cons] at hl
          omega
    rw [show (a :: t0') ++ (tok ++ r) = a :: (t0' ++ (tok ++ r)) from rfl]
    rw [removeTok_cons_neg tok a (t0' ++ (tok ++ r)) (by tauto)]
    rw [ih r (fun hi => h0 (infix_cons hi))]
    rfl

/-! ### The four marker tokens -/

/-- Long-quote opening marker. -/
def qOpenTok : List Char := "[[CITACAO_LONGA]]".toList

/-- Long-quote closing marker. -/
def qCloseTok : List Char := "[[/CITACAO_LONGA]]".toList

/-- References-block opening marker. -/
def rOpenTok : List Char := "[[REFERENCIAS]]".toList

/-- References-block closing marker. -/
def rCloseTok : List Char := "[[/REFERENCIAS]]".toList

theorem qOpenTok_ne_nil : qOpenTok ≠ [] := by decide

theorem qCloseTok_ne_nil : qCloseTok ≠ [] := by decide

theorem rCloseTok_ne_nil : rCloseTok ≠ [] := by decide

theorem qOpenTok_borderless : Borderless qOpenTok :=
  borderless_of_take_drop _ (by decide)

theorem qCloseTok_borderless : Borderless qCloseTok :=
  borderless_of_take_drop _ (by decide)

theorem rCloseTok_borderless : Borderless rCloseTok :=
  borderless_of_take_drop _ (by decide)

/-! ### Data model: python-docx document state -/

/-- Paragraph alignment (WD_ALIGN_PARAGRAPH values used by the program). -/
inductive Align
  | left
  | center
  | right
  | justify
deriving DecidableEq, Repr

/-- A python-docx length (`docx.shared.Length`), kept symbolic with its
constructor unit. `Cm x` denotes `x * 360000` EMU and `Pt x` denotes
`x * 12700` EMU; the program only ever assigns such values and compares them
within one unit, never computes with them, so two lengths of the same unit
are equal exactly when their scalar payloads are. -/
inductive Length
  | ofCm (x : ℚ)
  | ofPt (x : ℚ)
deriving DecidableEq, Repr

/-- Constructor for `docx.shared.Cm`. -/
def Cm (x : ℚ) : Length := Length.ofCm x

/-- Constructor for `docx.shared.Pt`. -/
def Pt (x : ℚ) : Length := Length.ofPt x

/-- The float literal `1.5` (line spacing), written as a literal reduced
fraction. -/
def threeHalves : ℚ := ⟨3, 2, by decide, by decide⟩

/-- The float literal `1.25` (default first-line indent / hanging indent in
cm), written as a literal reduced fraction. -/
def fiveQuarters : ℚ := ⟨5, 4, by decide, by decide⟩

/-- A paragraph formatting record: `paragraph_format` fields together with
`alignment` (in python-docx `p.alignment` is the same underlying property as
`p.paragraph_format.alignment`). `none` means the property is not set. -/
structure ParaFormat where
  alignment : Option Align := none
  firstLineIndent : Option Length := none
  leftIndent : Option Length := none
  rightIndent : Option Length := none
  lineSpacing : Option ℚ := none
  spaceBefore : Option Length := none
  spaceAfter : Option Length := none
deriving DecidableEq, Repr

/-- A body-level paragraph. `text` is the concatenated run text (read and
written through `p.text`); `styleName` the name of its style; `hasDrawing`
whether the XPath query `.//w:drawing` matches inside the paragraph. -/
structure Paragraph where
  text : List Char := []
  styleName : List Char := "Normal".toList
  hasDrawing : Bool := false
  fmt : ParaFormat := {}
deriving DecidableEq, Repr

/-- A named style in the document style registry. -/
structure Style where
  fontName : Option (List Char) := none
  fontSize : Option Length := none
  pf : ParaFormat := {}
deriving DecidableEq, Repr

/-- A table row: the number of `<w:cantSplit/>` and `<w:tblHeader/>` children
currently in its `trPr` element (the code appends fresh elements without
checking for existing ones, so these are counts, not flags). -/
structure Row where
  cantSplit : Nat := 0
  tblHeader : Nat := 0
deriving DecidableEq, Repr

/-- A table: its rows and the number of `<w:tblLayout w:type="fixed"/>`
children appended to its `tblPr`. -/
structure Table where
  rows : List Row := []
  layoutFixed : Nat := 0
deriving DecidableEq, Repr

/-- One element of the document body: a paragraph, a table, or any other
element (e.g. `sectPr`, or the raw non-`w:p` elements that the
table-caption code inserts). -/
inductive Block
  | p (para : Paragraph)
  | tbl (t : Table)
  | other
deriving DecidableEq, Repr

/-- A document section: margins plus its footer paragraphs. -/
structure Section where
  topMargin : Option Length := none
  leftMargin : Option Length := none
  rightMargin : Option Length := none
  bottomMargin : Option Length := none
  footer : List Paragraph := []
deriving DecidableEq, Repr

/-- The document: ordered body, style registry (association list keyed by
style name, as the `doc.styles` mapping), and sections. -/
structure Document where
  body : List Block
  styles : List (List Char × Style) := [("Normal".toList, {})]
  sections : List Section := [{}]
deriving DecidableEq, Repr

/-- Projection `doc.paragraphs`: the in-order body-level paragraphs. -/
def parasOf (body : List Block) : List Paragraph :=
  body.filterMap fun b =>
    match b with
    | Block.p para => some para
    | _ => none

/-- Projection `doc.tables`: the in-order body-level tables. -/
def tablesOf (body : List Block) : List Table :=
  body.filterMap fun b =>
    match b with
    | Block.tbl t => some t
    | _ => none

theorem parasOf_append (x y : List Block) :
    parasOf (x ++ y) = parasOf x ++ parasOf y := by
  simp [parasOf]

@[simp] theorem parasOf_nil : parasOf [] = [] := rfl

@[simp] theorem parasOf_cons_p (para : Paragraph) (x : List Block) :
    parasOf (Block.p para :: x) = para :: parasOf x := by
  simp [parasOf]

@[simp] theorem parasOf_cons_tbl (t : Table) (x : List Block) :
    parasOf (Block.tbl t :: x) = parasOf x := by
  simp [parasOf]

@[simp] theorem parasOf_cons_other (x : List Block) :
    parasOf (Block.other :: x) = parasOf x := by
  simp [parasOf]

@[simp] theorem tablesOf_nil : tablesOf [] = [] := rfl

@[simp] theorem tablesOf_cons_p (para : Paragraph) (x : List Block) :
    tablesOf (Block.p para :: x) = tablesOf x := by
  simp [tablesOf]

@[simp] theorem tablesOf_cons_tbl (t : Table) (x : List Block) :
    tablesOf (Block.tbl t :: x) = t :: tablesOf x := by
  simp [tablesOf]

@[simp] theorem tablesOf_cons_other (x : List Block) :
    tablesOf (Block.other :: x) = tablesOf x := by
  simp [tablesOf]

theorem tablesOf_append (x y : List Block) :
    tablesOf (x ++ y) = tablesOf x ++ tablesOf y := by
  simp [tablesOf]

/-- Split a body at a designated element of its paragraph projection. -/
theorem parasOf_split (q : Paragraph) :
    ∀ (body : List Block) (X Y : List Paragraph), parasOf body = X ++ q :: Y →
      ∃ bX bY, body = bX ++ Block.p q :: bY ∧ parasOf bX = X ∧ parasOf bY = Y := by
  intro body
  induction body with
  | nil =>
    intro X Y h
    simp [parasOf] at h
  | cons b rest ih =>
    intro X Y h
    match b with
    | Block.p para =>
      have h2 : para :: parasOf rest = X ++ q :: Y := by
        simpa [parasOf] using h
      match X with
      | [] =>
        simp at h2
        exact ⟨[], rest, by simp [h2.1.symm], by simp [parasOf], by simp [h2.2.symm]⟩
      | x :: X' =>
        simp at h2
        obtain ⟨bX, bY, hb, hX, hY⟩ := ih X' Y h2.2
        exact ⟨Block.p x :: bX, bY, by simp [hb, h2.1], by simpa [parasOf] using hX, hY⟩
    | Block.tbl t =>
      have h2 : parasOf rest = X ++ q :: Y := by simpa [parasOf] using h
      obtain ⟨bX, bY, hb, hX, hY⟩ := ih X Y h2
      exact ⟨Block.tbl t :: bX, bY, by simp [hb], by simpa [parasOf] using hX, hY⟩
    | Block.other =>
      have h2 : parasOf rest = X ++ q :: Y := by simpa [parasOf] using h
      obtain ⟨bX, bY, hb, hX, hY⟩ := ih X Y h2
      exact ⟨Block.other :: bX, bY, by simp [hb], by simpa [parasOf] using hX, hY⟩

/-! ### Style registry primitives -/

/-- Lookup of a style by name in the registry (`doc.styles[name]`,
`paragraph.style`). -/
def lookupStyle : List (List Char × Style) → List Char → Option Style
  | [], _ => none
  | e :: ss, name => if e.1 = name then some e.2 else lookupStyle ss name

/-- Assigning `style.font.size` for the style named `name`. -/
def updFontSize (ss : List (List Char × Style)) (name : List Char) (sz : Length) :
    List (List Char × Style) :=
  ss.map fun e => if e.1 = name then (e.1, { e.2 with fontSize := some sz }) else e

/-- Apply a function to every body-level paragraph, in place (the shape of
every `for p in doc.paragraphs: ...` pass that carries no state). -/
def mapParas (f : Paragraph → Paragraph) (body : List Block) : List Block :=
  body.map fun b =>
    match b with
    | Block.p para => Block.p (f para)
    | b => b

/-! ### Whole-document property passes (src/abnt.py) -/

/-- Per-section body of the `set_page_margins` loop. -/
def setMarginsSec (top left right bottom : ℚ) (s : Section) : Section :=
  { s with topMargin := some (Cm top), leftMargin := some (Cm left),
           rightMargin := some (Cm right), bottomMargin := some (Cm bottom) }

/-- Translation of `set_page_margins`: assign the four margins on every
section. -/
def set_page_margins (d : Document) (top left right bottom : ℚ) : Document :=
  { d with sections := d.sections.map (setMarginsSec top left right bottom) }

/-- The name of the default style. -/
def normalKey : List Char := "Normal".toList

/-- Effect of `configure_default_style` on one registry entry: the entry
named "Normal" is overwritten, others are untouched. -/
def cfgNormalEntry (fontName : List Char) (fontSizePt lineSpacing firstLineIndentCm : ℚ)
    (e : List Char × Style) : List Char × Style :=
  if e.1 = normalKey then
    (e.1,
      { e.2 with
          fontName := some fontName,
          fontSize := some (Pt fontSizePt),
          pf :=
            { e.2.pf with
                lineSpacing := some lineSpacing,
                spaceBefore := some (Pt 0),
                spaceAfter := some (Pt 0),
                firstLineIndent := some (Cm firstLineIndentCm) } })
  else e

/-- Translation of `configure_default_style`: set font name/size and the
paragraph format of the "Normal" style. (The `justify` parameter of the
Python function is unused by its body and is dropped here.) -/
def configure_default_style (d : Document) (fontName : List Char)
    (fontSizePt lineSpacing firstLineIndentCm : ℚ) : Document :=
  { d with styles :=
      d.styles.map (cfgNormalEntry fontName fontSizePt lineSpacing firstLineIndentCm) }

/-- Test `p.style.name.lower().startswith("heading")`. -/
def isHeadingName (name : List Char) : Bool :=
  "heading".toList.isPrefixOf (name.map Char.toLower)

/-- Per-paragraph effect of `style_all_paragraphs`. -/
def styleParaStep (justify : Bool) (indentCm : ℚ) (p : Paragraph) : Paragraph :=
  if isHeadingName p.styleName then
    { p with fmt :=
        { p.fmt with
            alignment := some Align.left,
            firstLineIndent := some (Cm 0),
            spaceBefore := some (Pt 0),
            spaceAfter := some (Pt 0) } }
  else
    { p with fmt :=
        { p.fmt with
            alignment := if justify then some Align.justify else p.fmt.alignment,
            firstLineIndent := some (Cm indentCm),
            spaceBefore := some (Pt 0),
            spaceAfter := some (Pt 0) } }

/-- Translation of `style_all_paragraphs`. -/
def style_all_paragraphs (d : Document) (justify : Bool) (indentCm : ℚ) : Document :=
  { d with body := mapParas (styleParaStep justify indentCm) d.body }

/-- Translation of `uppercase_heading_runs`: uppercase every run, hence the
concatenated text. -/
def uppercase_heading_runs (p : Paragraph) : Paragraph :=
  { p with text := p.text.map Char.toUpper }

/-- Per-paragraph effect of `configure_heading_styles`. -/
def headingCapsStep (h1 h2 h3 : Bool) (p : Paragraph) : Paragraph :=
  let cap : Bool :=
    if p.styleName = "Heading 1".toList then h1
    else if p.styleName = "Heading 2".toList then h2
    else if p.styleName = "Heading 3".toList then h3
    else false
  if cap then
    { uppercase_heading_runs p with fmt :=
        { p.fmt with
            alignment := some Align.left,
            firstLineIndent := some (Cm 0) } }
  else p

/-- Translation of `configure_heading_styles`. -/
def configure_heading_styles (d : Document) (h1 h2 h3 : Bool) : Document :=
  { d with body := mapParas (headingCapsStep h1 h2 h3) d.body }

/-- Alignment chosen by `add_page_number_to_footer` (a dict lookup whose
default is RIGHT). -/
def footerAlign (position : List Char) : Align :=
  if position = "center".toList then Align.center
  else if position = "left".toList then Align.left
  else Align.right

/-- Translation of `add_page_number_to_footer`: per section, take the first
footer paragraph (adding one to an empty footer), set its alignment, and
append a PAGE field run. The field run contains no `w:t` element, so the
paragraph text is unchanged. -/
def add_page_number_to_footer (d : Document) (position : List Char) : Document :=
  { d with sections := d.sections.map fun s =>
      match s.footer with
      | [] => { s with footer :=
          [{ ({} : Paragraph) with
              fmt := { ({} : ParaFormat) with alignment := some (footerAlign position) } }] }
      | q :: rest => { s with footer :=
          { q with fmt := { q.fmt with alignment := some (footerAlign position) } } :: rest } }

/-! ### Blank-line collapse -/

/-- Test for Python `not p.text.strip()`: the paragraph text is empty or
whitespace-only. -/
def isBlankPara (p : Paragraph) : Bool := p.text.all fun c => c.isWhitespace

/-- The while-loop of `remove_extra_blank_lines`, in streaming form. The
Python loop keeps an anchor index `i` into `doc.paragraphs` and deletes the
paragraph after the anchor while both are blank, advancing only when the
pair is not doubly blank; equivalently, walking the body once, a paragraph is
deleted exactly when it is blank and the most recently kept paragraph is
blank (`prevBlank`). The first paragraph is never deleted (initial flag
`false`), and non-paragraph body elements are invisible to `doc.paragraphs`,
so they are kept and do not affect the flag. -/
def reblGo (prevBlank : Bool) : List Block → List Block
  | [] => []
  | Block.p q :: rest =>
      if prevBlank && isBlankPara q then reblGo prevBlank rest
      else Block.p q :: reblGo (isBlankPara q) rest
  | Block.tbl t :: rest => Block.tbl t :: reblGo prevBlank rest
  | Block.other :: rest => Block.other :: reblGo prevBlank rest

/-- Translation of `remove_extra_blank_lines`. -/
def remove_extra_blank_lines (d : Document) : Document :=
  { d with body := reblGo false d.body }

/-! ### Table hardening -/

/-- Translation of `_set_row_cant_split`: append one `<w:cantSplit/>` to the
row properties. -/
def set_row_cant_split (r : Row) : Row := { r with cantSplit := r.cantSplit + 1 }

/-- The `for i, row in enumerate(table.rows)` loop of
`prevent_table_row_split_and_repeat_header`: every row gets a fresh
`cantSplit` element, row 0 additionally a fresh `tblHeader` element. -/
def hardenRows : Nat → List Row → List Row
  | _, [] => []
  | i, r :: rest =>
      let r2 := set_row_cant_split r
      let r3 := if i = 0 then { r2 with tblHeader := r2.tblHeader + 1 } else r2
      r3 :: hardenRows (i + 1) rest

/-- Translation of `prevent_table_row_split_and_repeat_header` (the trailing
`tblLayout` append never raises, so the try/except is immaterial). -/
def prevent_table_row_split_and_repeat_header (t : Table) : Table :=
  { rows := hardenRows 0 t.rows, layoutFixed := t.layoutFixed + 1 }

/-- Per-paragraph effect of `center_paragraphs_with_drawings`. -/
def centerDrawingStep (p : Paragraph) : Paragraph :=
  if p.hasDrawing then
    { p with fmt :=
        { p.fmt with
            alignment := some Align.center,
            firstLineIndent := some (Cm 0) } }
  else p

/-- Translation of `center_paragraphs_with_drawings`. -/
def center_paragraphs_with_drawings (d : Document) : Document :=
  { d with body := mapParas centerDrawingStep d.body }

/-! ### Long-quotation region pass -/

/-- The paragraph-format effect of `apply_long_quote_style`. -/
def lqStylePara (p : Paragraph) : Paragraph :=
  { p with fmt :=
      { p.fmt with
          firstLineIndent := some (Cm 0),
          leftIndent := some (Cm 4),
          rightIndent := some (Cm 0),
          lineSpacing := some 1,
          alignment := some Align.justify } }

/-- Translation of `apply_long_quote_style`: mutate the paragraph's format
and set the font size of the paragraph's (shared, registry-held) style to
10pt. In Python, `x.size = Pt(10) if cond else None` parses as an
unconditional assignment of a conditional value, and `cond`
(`paragraph.style and paragraph.style.font`) is always truthy in
python-docx, so the style font size is always assigned `Pt(10)`. -/
def apply_long_quote_style (ss : List (List Char × Style)) (p : Paragraph) :
    List (List Char × Style) × Paragraph :=
  (updFontSize ss p.styleName (Pt 10), lqStylePara p)

/-- Result of the long-quote scanning loop: the rewritten body, the style
registry, the final `in_block` flag, and the `changed` counter. -/
structure LQOut where
  body : List Block
  styles : List (List Char × Style)
  flag : Bool
  count : Nat
deriving DecidableEq, Repr

/-- The `for p in doc.paragraphs` loop of `process_long_quote_markers`;
`flag` is `in_block`. Non-paragraph body elements are not visited. -/
def lqScan (ss : List (List Char × Style)) (flag : Bool) : List Block → LQOut
  | [] => ⟨[], ss, flag, 0⟩
  | Block.p para :: rest =>
    if hasTok qOpenTok para.text then
      let sp := apply_long_quote_style ss { para with text := removeTok qOpenTok para.text }
      let o := lqScan sp.1 true rest
      ⟨Block.p sp.2 :: o.body, o.styles, o.flag, o.count + 1⟩
    else if hasTok qCloseTok para.text then
      let sp := apply_long_quote_style ss { para with text := removeTok qCloseTok para.text }
      let o := lqScan sp.1 false rest
      ⟨Block.p sp.2 :: o.body, o.styles, o.flag, o.count + 1⟩
    else if flag then
      let sp := apply_long_quote_style ss para
      let o := lqScan sp.1 flag rest
      ⟨Block.p sp.2 :: o.body, o.styles, o.flag, o.count + 1⟩
    else
      let o := lqScan ss flag rest
      ⟨Block.p para :: o.body, o.styles, o.flag, o.count⟩
  | Block.tbl t :: rest =>
    let o := lqScan ss flag rest
    ⟨Block.tbl t :: o.body, o.styles, o.flag, o.count⟩
  | Block.other :: rest =>
    let o := lqScan ss flag rest
    ⟨Block.other :: o.body, o.styles, o.flag, o.count⟩

/-- Translation of `process_long_quote_markers`. -/
def process_long_quote_markers (d : Document) : Document × Nat :=
  let o := lqScan d.styles false d.body
  ({ d with body := o.body, styles := o.styles }, o.count)

/-! ### References-block region pass -/

/-- Format applied by the styling block of `apply_references_block_format`. -/
def refsStylePara (hang ls sa : ℚ) (p : Paragraph) : Paragraph :=
  { p with fmt :=
      { p.fmt with
          firstLineIndent := some (Cm 0),
          leftIndent := some (Cm hang),
          lineSpacing := some ls,
          spaceAfter := some (Pt sa),
          alignment := some Align.justify } }

/-- Result of the references scanning loop. -/
structure RScanOut where
  body : List Block
  flag : Bool
  count : Nat
deriving DecidableEq, Repr

/-- The `for p in doc.paragraphs` loop of `apply_references_block_format`;
`flag` is `in_refs`. The trailing `if in_refs or close in t` test uses the
updated flag but the paragraph's original text `t`. -/
def refsScan (hang ls sa : ℚ) (flag : Bool) : List Block → RScanOut
  | [] => ⟨[], flag, 0⟩
  | Block.p para :: rest =>
    let t := para.text
    let fp : Bool × Paragraph :=
      if hasTok rOpenTok t then (true, { para with text := removeTok rOpenTok t })
      else if hasTok rCloseTok t then (false, { para with text := removeTok rCloseTok t })
      else (flag, para)
    if fp.1 || hasTok rCloseTok t then
      let o := refsScan hang ls sa fp.1 rest
      ⟨Block.p (refsStylePara hang ls sa fp.2) :: o.body, o.flag, o.count + 1⟩
    else
      let o := refsScan hang ls sa fp.1 rest
      ⟨Block.p fp.2 :: o.body, o.flag, o.count⟩
  | Block.tbl tb :: rest =>
    let o := refsScan hang ls sa flag rest
    ⟨Block.tbl tb :: o.body, o.flag, o.count⟩
  | Block.other :: rest =>
    let o := refsScan hang ls sa flag rest
    ⟨Block.other :: o.body, o.flag, o.count⟩

/-- Translation of `apply_references_block_format`. -/
def apply_references_block_format (d : Document) (hang ls sa : ℚ) : Document × Nat :=
  let o := refsScan hang ls sa false d.body
  ({ d with body := o.body }, o.count)

/-! ### Captions walk

`ensure_captions` iterates `doc.element.body` (an lxml element) while
inserting siblings. lxml's child iterator pre-computes the next sibling when
it yields the current one, so elements inserted during the loop body — after
the current element via `addnext`, or before it via `addprevious` — are never
themselves visited. The walk therefore visits exactly the original body
elements, in order.

Two library facts decide the branches:

* Figure captions. `add_caption_after_paragraph` calls
  `p.insert_paragraph_after(text)`, but python-docx's `Paragraph` class has
  no such method (only `insert_paragraph_before` exists, in every released
  version). The call raises `AttributeError`, aborting the pass — modelled
  as `none`.
* Table captions. The code builds the elements to insert with
  `first_p._element.__class__('w:p')`. If there is no body paragraph at all,
  `doc.paragraphs[0]` raises `IndexError` — modelled as `none`. Otherwise
  the lxml `ElementBase` constructor treats the positional argument `'w:p'`
  as content, not as a tag (the tag of a directly-instantiated element class
  comes from the class, here `CT_P`, with no `w:` namespace), so the two
  inserted siblings are not `w:p` elements: the subsequent search
  `pp._p is new_p_above` over `doc.paragraphs` finds nothing, `p_obj_above`
  / `p_obj_below` stay `None`, and no text or formatting is applied. The
  inserted nodes are modelled as `Block.other`.

Since figure-caption insertion always fails and the table-caption nodes are
never `w:p` elements, the set of body paragraphs never grows during the
walk, so "does the document have a body paragraph" (the `IndexError` guard)
is a constant of the walk, computed from the original body. -/

/-- Does `doc.paragraphs` have at least one element? -/
def hasBodyParagraph (body : List Block) : Bool :=
  body.any fun b =>
    match b with
    | Block.p _ => true
    | _ => false

/-- The body walk of `ensure_captions` (see the section comment for the
failure modes). Tables are hardened unconditionally before the caption
branch. -/
def ensureCaptionsGo (figF tabF hasPara : Bool) : List Block → Option (List Block)
  | [] => some []
  | Block.p para :: rest =>
    if para.hasDrawing && figF then
      none
    else
      (ensureCaptionsGo figF tabF hasPara rest).map fun r => Block.p para :: r
  | Block.tbl t :: rest =>
    let t2 := prevent_table_row_split_and_repeat_header t
    if tabF then
      if hasPara then
        (ensureCaptionsGo figF tabF hasPara rest).map fun r =>
          Block.other :: Block.tbl t2 :: Block.other :: r
      else none
    else
      (ensureCaptionsGo figF tabF hasPara rest).map fun r => Block.tbl t2 :: r
  | Block.other :: rest =>
    (ensureCaptionsGo figF tabF hasPara rest).map fun r => Block.other :: r

/-- Translation of `ensure_captions`. -/
def ensure_captions (d : Document) (figF tabF : Bool) : Option Document :=
  (ensureCaptionsGo figF tabF (hasBodyParagraph d.body) d.body).map fun b =>
    { d with body := b }

/-! ### Pipeline -/

/-- The `for t in doc.tables: prevent_table_row_split_and_repeat_header(t)`
loop of `apply_abnt_formatting`, as a body transformation. -/
def hardenTablesBody (body : List Block) : List Block :=
  body.map fun b =>
    match b with
    | Block.tbl t => Block.tbl (prevent_table_row_split_and_repeat_header t)
    | b => b

/-- Translation of `apply_abnt_formatting`, with the configuration record of
the Streamlit caller as arguments. `none` means the pipeline raised (the
caller catches the exception and offers no output). -/
def apply_abnt_formatting (d : Document) (h1 h2 h3 justify footerNums : Bool)
    (indentCm : ℚ) (centerImgs figF tabF refsF : Bool) : Option Document :=
  let d1 := set_page_margins d 3 3 2 2
  let d2 := configure_default_style d1 "Times New Roman".toList 12 threeHalves indentCm
  let d3 := style_all_paragraphs d2 justify indentCm
  let d4 := configure_heading_styles d3 h1 h2 h3
  let d5 := if centerImgs then center_paragraphs_with_drawings d4 else d4
  let d6 := { d5 with body := hardenTablesBody d5.body }
  match ensure_captions d6 figF tabF with
  | none => none
  | some d7 =>
    let d8 := (process_long_quote_markers d7).1
    let d9 := if refsF then (apply_references_block_format d8 fiveQuarters 1 6).1 else d8
    let d10 := if footerNums then add_page_number_to_footer d9 "right".toList else d9
    some (remove_extra_blank_lines d10)

/-! ### Target-style predicates -/

/-- The long-quotation target format: first-line indent 0, left indent 4cm,
right indent 0, single line spacing, justified. -/
def IsLongQuoteStyled (p : Paragraph) : Prop :=
  p.fmt.firstLineIndent = some (Cm 0) ∧ p.fmt.leftIndent = some (Cm 4) ∧
  p.fmt.rightIndent = some (Cm 0) ∧ p.fmt.lineSpacing = some 1 ∧
  p.fmt.alignment = some Align.justify

/-- The references-block target format with hanging amount `hang`, line
spacing `ls` and inter-entry spacing `sa`. -/
def IsRefsStyled (hang ls sa : ℚ) (p : Paragraph) : Prop :=
  p.fmt.firstLineIndent = some (Cm 0) ∧ p.fmt.leftIndent = some (Cm hang) ∧
  p.fmt.lineSpacing = some ls ∧ p.fmt.spaceAfter = some (Pt sa) ∧
  p.fmt.alignment = some Align.justify

theorem lqStylePara_styled (p : Paragraph) : IsLongQuoteStyled (lqStylePara p) := by
  simp [lqStylePara, IsLongQuoteStyled]

theorem refsStylePara_styled (hang ls sa : ℚ) (p : Paragraph) :
    IsRefsStyled hang ls sa (refsStylePara hang ls sa p) := by
  simp [refsStylePara, IsRefsStyled]

/-! ### Long-quote scan lemmas -/

theorem lqScan_append (x : List Block) :
    ∀ (ss : List (List Char × Style)) (f : Bool) (y : List Block),
      lqScan ss f (x ++ y) =
        ⟨(lqScan ss f x).body ++ (lqScan (lqScan ss f x).styles (lqScan ss f x).flag y).body,
         (lqScan (lqScan ss f x).styles (lqScan ss f x).flag y).styles,
         (lqScan (lqScan ss f x).styles (lqScan ss f x).flag y).flag,
         (lqScan ss f x).count +
           (lqScan (lqScan ss f x).styles (lqScan ss f x).flag y).count⟩ := by
  induction x with
  | nil => intro ss f y; simp [lqScan]
  | cons b x' ih =>
    intro ss f y
    match b with
    | Block.p para =>
      by_cases h1 : hasTok qOpenTok para.text
      · simp [lqScan, h1, ih, Nat.add_right_comm]
      · by_cases h2 : hasTok qCloseTok para.text
        · simp [lqScan, h1, h2, ih, Nat.add_right_comm]
        · by_cases h3 : f
          · simp [lqScan, h1, h2, h3, ih, Nat.add_right_comm]
          · simp [lqScan, h1, h2, h3, ih]
    | Block.tbl t => simp [lqScan, ih]
    | Block.other => simp [lqScan, ih]

theorem lqScan_of_no_paras (x : List Block) (h : parasOf x = []) :
    ∀ (ss : List (List Char × Style)) (f : Bool), lqScan ss f x = ⟨x, ss, f, 0⟩ := by
  induction x with
  | nil => intro ss f; simp [lqScan]
  | cons b x' ih =>
    intro ss f
    match b with
    | Block.p para => simp at h
    | Block.tbl t =>
      have h' : parasOf x' = [] := by simpa using h
      simp [lqScan, ih h']
    | Block.other =>
      have h' : parasOf x' = [] := by simpa using h
      simp [lqScan, ih h']

/-- With the flag off and no tokens anywhere, the long-quote scan changes
nothing. -/
theorem lqScan_id_of_no_tokens (x : List Block)
    (h : ∀ q ∈ parasOf x, hasTok qOpenTok q.text = false ∧ hasTok qCloseTok q.text = false) :
    ∀ ss : List (List Char × Style), lqScan ss false x = ⟨x, ss, false, 0⟩ := by
  induction x with
  | nil => intro ss; simp [lqScan]
  | cons b x' ih =>
    intro ss
    match b with
    | Block.p para =>
      have hp := h para (by simp)
      have h' : ∀ q ∈ parasOf x', hasTok qOpenTok q.text = false ∧
          hasTok qCloseTok q.text = false := by
        intro q hq
        exact h q (by simp [hq])
      simp [lqScan, hp.1, hp.2, ih h']
    | Block.tbl t =>
      have h' : ∀ q ∈ parasOf x', hasTok qOpenTok q.text = false ∧
          hasTok qCloseTok q.text = false := by
        intro q hq
        exact h q (by simp [hq])
      simp [lqScan, ih h']
    | Block.other =>
      have h' : ∀ q ∈ parasOf x', hasTok qOpenTok q.text = false ∧
          hasTok qCloseTok q.text = false := by
        intro q hq
        exact h q (by simp [hq])
      simp [lqScan, ih h']

/-- Once inside a region, if no later paragraph contains the close token,
every later paragraph comes out with the long-quote style. -/
theorem lqScan_styled_of_flag (x : List Block)
    (h : ∀ q ∈ parasOf x, hasTok qCloseTok q.text = false) :
    ∀ ss : List (List Char × Style),
      ∀ q ∈ parasOf (lqScan ss true x).body, IsLongQuoteStyled q := by
  induction x with
  | nil => intro ss q hq; simp [lqScan] at hq
  | cons b x' ih =>
    intro ss q hq
    have h' : ∀ q ∈ parasOf x', hasTok qCloseTok q.text = false := by
      intro q' hq'
      match b with
      | Block.p para => exact h q' (by simp [hq'])
      | Block.tbl t => exact h q' (by simp [hq'])
      | Block.other => exact h q' (by simp [hq'])
    match b with
    | Block.p para =>
      have hcl := h para (by simp)
      by_cases h1 : hasTok qOpenTok para.text
      · simp [lqScan, h1, apply_long_quote_style] at hq
        rcases hq with hq | hq
        · exact hq ▸ lqStylePara_styled _
        · exact ih h' _ q hq
      · simp [lqScan, h1, hcl, apply_long_quote_style] at hq
        rcases hq with hq | hq
        · exact hq ▸ lqStylePara_styled _
        · exact ih h' _ q hq
    | Block.tbl t =>
      simp [lqScan] at hq
      exact ih h' _ q hq
    | Block.other =>
      simp [lqScan] at hq
      exact ih h' _ q hq

/-- The scan maps paragraphs to paragraphs one-for-one. -/
theorem parasOf_lqScan_length (x : List Block) :
    ∀ (ss : List (List Char × Style)) (f : Bool),
      (parasOf (lqScan ss f x).body).length = (parasOf x).length := by
  induction x with
  | nil => intro ss f; simp [lqScan]
  | cons b x' ih =>
    intro ss f
    match b with
    | Block.p para =>
      by_cases h1 : hasTok qOpenTok para.text
      · simp [lqScan, h1, ih]
      · by_cases h2 : hasTok qCloseTok para.text
        · simp [lqScan, h1, h2, ih]
        · by_cases h3 : f
          · simp [lqScan, h1, h2, h3, ih]
          · simp [lqScan, h1, h2, h3, ih]
    | Block.tbl t => simp [lqScan, ih]
    | Block.other => simp [lqScan, ih]

/-! ### References scan lemmas -/

theorem refsScan_append (hang ls sa : ℚ) (x : List Block) :
    ∀ (f : Bool) (y : List Block),
      refsScan hang ls sa f (x ++ y) =
        ⟨(refsScan hang ls sa f x).body ++
           (refsScan hang ls sa (refsScan hang ls sa f x).flag y).body,
         (refsScan hang ls sa (refsScan hang ls sa f x).flag y).flag,
         (refsScan hang ls sa f x).count +
           (refsScan hang ls sa (refsScan hang ls sa f x).flag y).count⟩ := by
  induction x with
  | nil => intro f y; simp [refsScan]
  | cons b x' ih =>
    intro f y
    match b with
    | Block.p para =>
      by_cases h1 : hasTok rOpenTok para.text
      · simp [refsScan, h1, ih, Nat.add_right_comm]
      · by_cases h2 : hasTok rCloseTok para.text
        · simp [refsScan, h1, h2, ih, Nat.add_right_comm]
        · by_cases h3 : f
          · simp [refsScan, h1, h2, h3, ih, Nat.add_right_comm]
          · simp [refsScan, h1, h2, h3, ih]
    | Block.tbl t => simp [refsScan, ih]
    | Block.other => simp [refsScan, ih]

/-- Once inside a references region, if no later paragraph contains the
close token, every later paragraph comes out with the references style. -/
theorem refsScan_styled_of_flag (hang ls sa : ℚ) (x : List Block)
    (h : ∀ q ∈ parasOf x, hasTok rCloseTok q.text = false) :
    ∀ q ∈ parasOf (refsScan hang ls sa true x).body, IsRefsStyled hang ls sa q := by
  induction x with
  | nil => intro q hq; simp [refsScan] at hq
  | cons b x' ih =>
    intro q hq
    have h' : ∀ q ∈ parasOf x', hasTok rCloseTok q.text = false := by
      intro q' hq'
      match b with
      | Block.p para => exact h q' (by simp [hq'])
      | Block.tbl t => exact h q' (by simp [hq'])
      | Block.other => exact h q' (by simp [hq'])
    match b with
    | Block.p para =>
      have hcl := h para (by simp)
      by_cases h1 : hasTok rOpenTok para.text
      · simp [refsScan, h1, hcl] at hq
        rcases hq with hq | hq
        · exact hq ▸ refsStylePara_styled hang ls sa _
        · exact ih h' q hq
      · simp [refsScan, h1, hcl] at hq
        rcases hq with hq | hq
        · exact hq ▸ refsStylePara_styled hang ls sa _
        · exact ih h' q hq
    | Block.tbl t =>
      simp [refsScan] at hq
      exact ih h' q hq
    | Block.other =>
      simp [refsScan] at hq
      exact ih h' q hq

theorem parasOf_refsScan_length (hang ls sa : ℚ) (x : List Block) :
    ∀ f : Bool,
      (parasOf (refsScan hang ls sa f x).body).length = (parasOf x).length := by
  induction x with
  | nil => intro f; simp [refsScan]
  | cons b x' ih =>
    intro f
    match b with
    | Block.p para =>
      by_cases h1 : hasTok rOpenTok para.text
      · simp [refsScan, h1, ih]
      · by_cases h2 : hasTok rCloseTok para.text
        · simp [refsScan, h1, h2, ih]
        · by_cases h3 : f
          · simp [refsScan, h1, h2, h3, ih]
          · simp [refsScan, h1, h2, h3, ih]
    | Block.tbl t => simp [refsScan, ih]
    | Block.other => simp [refsScan, ih]

/-- With the flag off and no tokens anywhere, the references scan changes
nothing. -/
theorem refsScan_id_of_no_tokens (hang ls sa : ℚ) (x : List Block)
    (h : ∀ q ∈ parasOf x, hasTok rOpenTok q.text = false ∧ hasTok rCloseTok q.text = false) :
    refsScan hang ls sa false x = ⟨x, false, 0⟩ := by
  induction x with
  | nil => simp [refsScan]
  | cons b x' ih =>
    match b with
    | Block.p para =>
      have hp := h para (by simp)
      have h' : ∀ q ∈ parasOf x', hasTok rOpenTok q.text = false ∧
          hasTok rCloseTok q.text = false := by
        intro q hq
        exact h q (by simp [hq])
      simp [refsScan, hp.1, hp.2, ih h']
    | Block.tbl t =>
      have h' : ∀ q ∈ parasOf x', hasTok rOpenTok q.text = false ∧
          hasTok rCloseTok q.text = false := by
        intro q hq
        exact h q (by simp [hq])
      simp [refsScan, ih h']
    | Block.other =>
      have h' : ∀ q ∈ parasOf x', hasTok rOpenTok q.text = false ∧
          hasTok rCloseTok q.text = false := by
        intro q hq
        exact h q (by simp [hq])
      simp [refsScan, ih h']

/-! ### One-step unfolding lemmas for the scanners -/

theorem lqScan_seg_cons (seg : List Block) (hseg : parasOf seg = [])
    (ss : List (List Char × Style)) (f : Bool) (rest : List Block) :
    lqScan ss f (seg ++ rest) =
      ⟨seg ++ (lqScan ss f rest).body, (lqScan ss f rest).styles,
       (lqScan ss f rest).flag, (lqScan ss f rest).count⟩ := by
  rw [lqScan_append, lqScan_of_no_paras seg hseg]
  simp

theorem lqScan_cons_open {para : Paragraph} (h : hasTok qOpenTok para.text = true)
    (ss : List (List Char × Style)) (f : Bool) (rest : List Block) :
    lqScan ss f (Block.p para :: rest) =
      ⟨Block.p (lqStylePara { para with text := removeTok qOpenTok para.text }) ::
         (lqScan (updFontSize ss para.styleName (Pt 10)) true rest).body,
       (lqScan (updFontSize ss para.styleName (Pt 10)) true rest).styles,
       (lqScan (updFontSize ss para.styleName (Pt 10)) true rest).flag,
       (lqScan (updFontSize ss para.styleName (Pt 10)) true rest).count + 1⟩ := by
  simp [lqScan, h, apply_long_quote_style]

theorem lqScan_cons_close {para : Paragraph} (h1 : hasTok qOpenTok para.text = false)
    (h2 : hasTok qCloseTok para.text = true)
    (ss : List (List Char × Style)) (f : Bool) (rest : List Block) :
    lqScan ss f (Block.p para :: rest) =
      ⟨Block.p (lqStylePara { para with text := removeTok qCloseTok para.text }) ::
         (lqScan (updFontSize ss para.styleName (Pt 10)) false rest).body,
       (lqScan (updFontSize ss para.styleName (Pt 10)) false rest).styles,
       (lqScan (updFontSize ss para.styleName (Pt 10)) false rest).flag,
       (lqScan (updFontSize ss para.styleName (Pt 10)) false rest).count + 1⟩ := by
  simp [lqScan, h1, h2, apply_long_quote_style]

theorem lqScan_cons_inblock {para : Paragraph} (h1 : hasTok qOpenTok para.text = false)
    (h2 : hasTok qCloseTok para.text = false)
    (ss : List (List Char × Style)) (rest : List Block) :
    lqScan ss true (Block.p para :: rest) =
      ⟨Block.p (lqStylePara para) ::
         (lqScan (updFontSize ss para.styleName (Pt 10)) true rest).body,
       (lqScan (updFontSize ss para.styleName (Pt 10)) true rest).styles,
       (lqScan (updFontSize ss para.styleName (Pt 10)) true rest).flag,
       (lqScan (updFontSize ss para.styleName (Pt 10)) true rest).count + 1⟩ := by
  simp [lqScan, h1, h2, apply_long_quote_style]

theorem lqScan_cons_skip {para : Paragraph} (h1 : hasTok qOpenTok para.text = false)
    (h2 : hasTok qCloseTok para.text = false)
    (ss : List (List Char × Style)) (rest : List Block) :
    lqScan ss false (Block.p para :: rest) =
      ⟨Block.p para :: (lqScan ss false rest).body, (lqScan ss false rest).styles,
       (lqScan ss false rest).flag, (lqScan ss false rest).count⟩ := by
  simp [lqScan, h1, h2]

theorem refsScan_cons_close {para : Paragraph} (h1 : hasTok rOpenTok para.text = false)
    (h2 : hasTok rCloseTok para.text = true)
    (hang ls sa : ℚ) (f : Bool) (rest : List Block) :
    refsScan hang ls sa f (Block.p para :: rest) =
      ⟨Block.p (refsStylePara hang ls sa { para with text := removeTok rCloseTok para.text }) ::
         (refsScan hang ls sa false rest).body,
       (refsScan hang ls sa false rest).flag,
       (refsScan hang ls sa false rest).count + 1⟩ := by
  simp [refsScan, h1, h2]

/-! ### Claim C4 -/

/-- Claim C4: in a document containing a paragraph with the open token and no
subsequent paragraph containing the matching close token, the region marker
pass (`process_long_quote_markers`, and likewise
`apply_references_block_format` for the references pair) styles every
paragraph from the open-token paragraph through the last paragraph of the
document with the target region style. -/
theorem unclosed_region_runs_to_document_end
    (d : Document) (A : List Paragraph) (po : Paragraph) (B : List Paragraph)
    (dr : Document) (Ar : List Paragraph) (pr : Paragraph) (Br : List Paragraph)
    (hang ls sa : ℚ)
    (hseq : parasOf d.body = A ++ po :: B)
    (hopen : hasTok qOpenTok po.text = true)
    (hB : ∀ q ∈ B, hasTok qCloseTok q.text = false)
    (hseqr : parasOf dr.body = Ar ++ pr :: Br)
    (hopenr : hasTok rOpenTok pr.text = true)
    (hBr : ∀ q ∈ Br, hasTok rCloseTok q.text = false) :
    (∀ q ∈ (parasOf (process_long_quote_markers d).1.body).drop A.length,
      IsLongQuoteStyled q) ∧
    (∀ q ∈ (parasOf (apply_references_block_format dr hang ls sa).1.body).drop Ar.length,
      IsRefsStyled hang ls sa q) := by
  constructor
  · obtain ⟨bA, bB, hb, hpa, hpb⟩ := parasOf_split po d.body A B hseq
    have hout : (process_long_quote_markers d).1.body =
        (lqScan d.styles false d.body).body := rfl
    have hlen : A.length = (parasOf (lqScan d.styles false bA).body).length := by
      rw [parasOf_lqScan_length, hpa]
    have hBb : ∀ q ∈ parasOf bB, hasTok qCloseTok q.text = false := by
      rw [hpb]; exact hB
    have key : parasOf (lqScan d.styles false d.body).body =
        parasOf (lqScan d.styles false bA).body ++
          (lqStylePara { po with text := removeTok qOpenTok po.text } ::
            parasOf (lqScan
              (updFontSize (lqScan d.styles false bA).styles po.styleName (Pt 10))
              true bB).body) := by
      rw [hb, lqScan_append]
      simp [lqScan, hopen, apply_long_quote_style, parasOf_append]
    intro q hq
    rw [hout, key, hlen, List.drop_left] at hq
    rcases List.mem_cons.mp hq with rfl | hq2
    · exact lqStylePara_styled _
    · exact lqScan_styled_of_flag bB hBb _ q hq2
  · obtain ⟨bA, bB, hb, hpa, hpb⟩ := parasOf_split pr dr.body Ar Br hseqr
    have hout : (apply_references_block_format dr hang ls sa).1.body =
        (refsScan hang ls sa false dr.body).body := rfl
    have hlen : Ar.length = (parasOf (refsScan hang ls sa false bA).body).length := by
      rw [parasOf_refsScan_length, hpa]
    have hBb : ∀ q ∈ parasOf bB, hasTok rCloseTok q.text = false := by
      rw [hpb]; exact hBr
    have key : parasOf (refsScan hang ls sa false dr.body).body =
        parasOf (refsScan hang ls sa false bA).body ++
          (refsStylePara hang ls sa { pr with text := removeTok rOpenTok pr.text } ::
            parasOf (refsScan hang ls sa true bB).body) := by
      rw [hb, refsScan_append]
      simp [refsScan, hopenr, parasOf_append]
    intro q hq
    rw [hout, key, hlen, List.drop_left] at hq
    rcases List.mem_cons.mp hq with rfl | hq2
    · exact refsStylePara_styled hang ls sa _
    · exact refsScan_styled_of_flag hang ls sa bB hBb q hq2

/-- Concrete document for the C4 witness: a single paragraph holding the
long-quote open token. -/
def paraQOpen : Paragraph := { text := qOpenTok }

/-- Concrete document for the C4 witness, references version. -/
def paraROpen : Paragraph := { text := rOpenTok }

def dEx4 : Document := { body := [Block.p paraQOpen] }

def dEx4r : Document := { body := [Block.p paraROpen] }

theorem unclosed_region_runs_to_document_end_witness :
    hasTok qOpenTok paraQOpen.text = true ∧
    ((∀ q ∈ (parasOf (process_long_quote_markers dEx4).1.body).drop 0,
        IsLongQuoteStyled q) ∧
     (∀ q ∈ (parasOf (apply_references_block_format dEx4r (5 / 4) 1 6).1.body).drop 0,
        IsRefsStyled (5 / 4) 1 6 q)) :=
  ⟨by decide,
    unclosed_region_runs_to_document_end dEx4 [] paraQOpen [] dEx4r [] paraROpen []
      (5 / 4) 1 6 rfl (by decide) (by simp) rfl (by decide) (by simp)⟩

/-! ### Claim C5 -/

/-- Claim C5: a close token occurring before any open token is tolerated by
both region passes. The close-token paragraph is still styled (the scanners
check for the close token independently of the region flag) and its close
token is stripped, while every ordinary token-free paragraph outside any
region — here, all the others — is left untouched. -/
theorem close_before_open_tolerated
    (d : Document) (A : List Paragraph) (pc : Paragraph) (B : List Paragraph)
    (t0 t1 : List Char)
    (dr : Document) (Ar : List Paragraph) (pcr : Paragraph) (Br : List Paragraph)
    (t0r t1r : List Char) (hang ls sa : ℚ)
    (hseq : parasOf d.body = A ++ pc :: B)
    (htext : pc.text = t0 ++ (qCloseTok ++ t1))
    (hpcO : hasTok qOpenTok pc.text = false)
    (h0 : hasTok qCloseTok t0 = false)
    (h1 : hasTok qCloseTok t1 = false)
    (hA : ∀ q ∈ A, hasTok qOpenTok q.text = false ∧ hasTok qCloseTok q.text = false)
    (hB : ∀ q ∈ B, hasTok qOpenTok q.text = false ∧ hasTok qCloseTok q.text = false)
    (hseqr : parasOf dr.body = Ar ++ pcr :: Br)
    (htextr : pcr.text = t0r ++ (rCloseTok ++ t1r))
    (hpcOr : hasTok rOpenTok pcr.text = false)
    (h0r : hasTok rCloseTok t0r = false)
    (h1r : hasTok rCloseTok t1r = false)
    (hAr : ∀ q ∈ Ar, hasTok rOpenTok q.text = false ∧ hasTok rCloseTok q.text = false)
    (hBr : ∀ q ∈ Br, hasTok rOpenTok q.text = false ∧ hasTok rCloseTok q.text = false) :
    parasOf (process_long_quote_markers d).1.body
        = A ++ lqStylePara { pc with text := t0 ++ t1 } :: B
    ∧ parasOf (apply_references_block_format dr hang ls sa).1.body
        = Ar ++ refsStylePara hang ls sa { pcr with text := t0r ++ t1r } :: Br := by
  constructor
  · obtain ⟨bA, bB, hb, hpa, hpb⟩ := parasOf_split pc d.body A B hseq
    have hA' : ∀ q ∈ parasOf bA, hasTok qOpenTok q.text = false ∧
        hasTok qCloseTok q.text = false := by rw [hpa]; exact hA
    have hB' : ∀ q ∈ parasOf bB, hasTok qOpenTok q.text = false ∧
        hasTok qCloseTok q.text = false := by rw [hpb]; exact hB
    have hclose : hasTok qCloseTok pc.text = true := by
      rw [htext]
      exact hasTok_eq_true.mpr (infix_append' t0 qCloseTok t1)
    have hrm : removeTok qCloseTok pc.text = t0 ++ t1 := by
      rw [htext,
        removeTok_append qCloseTok qCloseTok_borderless qCloseTok_ne_nil t0 t1
          (hasTok_eq_false.mp h0),
        removeTok_eq_of_no_occurrence qCloseTok t1 (hasTok_eq_false.mp h1)]
    have hida := lqScan_id_of_no_tokens bA hA' d.styles
    have hidb := lqScan_id_of_no_tokens bB hB'
    have hrec : lqScan d.styles false d.body =
        ⟨bA ++ Block.p (lqStylePara { pc with text := t0 ++ t1 }) :: bB,
         updFontSize d.styles pc.styleName (Pt 10), false, 1⟩ := by
      rw [hb, lqScan_append, hida]
      rw [lqScan_cons_close hpcO hclose _ _ _]
      rw [hidb _]
      simp [hrm]
    have hout : (process_long_quote_markers d).1.body =
        (lqScan d.styles false d.body).body := rfl
    rw [hout, hrec]
    simp [parasOf_append, hpa, hpb]
  · obtain ⟨bA, bB, hb, hpa, hpb⟩ := parasOf_split pcr dr.body Ar Br hseqr
    have hA' : ∀ q ∈ parasOf bA, hasTok rOpenTok q.text = false ∧
        hasTok rCloseTok q.text = false := by rw [hpa]; exact hAr
    have hB' : ∀ q ∈ parasOf bB, hasTok rOpenTok q.text = false ∧
        hasTok rCloseTok q.text = false := by rw [hpb]; exact hBr
    have hclose : hasTok rCloseTok pcr.text = true := by
      rw [htextr]
      exact hasTok_eq_true.mpr (infix_append' t0r rCloseTok t1r)
    have hrm : removeTok rCloseTok pcr.text = t0r ++ t1r := by
      rw [htextr,
        removeTok_append rCloseTok rCloseTok_borderless rCloseTok_ne_nil t0r t1r
          (hasTok_eq_false.mp h0r),
        removeTok_eq_of_no_occurrence rCloseTok t1r (hasTok_eq_false.mp h1r)]
    have hida := refsScan_id_of_no_tokens hang ls sa bA hA'
    have hidb := refsScan_id_of_no_tokens hang ls sa bB hB'
    have hrec : refsScan hang ls sa false dr.body =
        ⟨bA ++ Block.p (refsStylePara hang ls sa { pcr with text := t0r ++ t1r }) :: bB,
         false, 1⟩ := by
      rw [hb, refsScan_append, hida]
      rw [refsScan_cons_close hpcOr hclose hang ls sa _ _]
      rw [hidb]
      simp [hrm]
    have hout : (apply_references_block_format dr hang ls sa).1.body =
        (refsScan hang ls sa false dr.body).body := rfl
    rw [hout, hrec]
    simp [parasOf_append, hpa, hpb]

/-- Concrete paragraph for the C5 witness: its whole text is the close token
and no open token ever occurs. -/
def pcEx5 : Paragraph := { text := qCloseTok }

/-- References version of the C5 witness paragraph. -/
def pcEx5r : Paragraph := { text := rCloseTok }

def dEx5 : Document := { body := [Block.p pcEx5] }

def dEx5r : Document := { body := [Block.p pcEx5r] }

theorem close_before_open_tolerated_witness :
    hasTok qOpenTok pcEx5.text = false ∧
    (parasOf (process_long_quote_markers dEx5).1.body
        = [lqStylePara { pcEx5 with text := ([] : List Char) ++ [] }] ∧
     parasOf (apply_references_block_format dEx5r (5 / 4) 1 6).1.body
        = [refsStylePara (5 / 4) 1 6 { pcEx5r with text := ([] : List Char) ++ [] }]) :=
  ⟨by decide,
    close_before_open_tolerated dEx5 [] pcEx5 [] [] [] dEx5r [] pcEx5r [] [] []
      (5 / 4) 1 6 rfl (by simp [pcEx5]) (by decide) (by decide) (by decide)
      (by simp) (by simp) rfl (by simp [pcEx5r]) (by decide) (by decide) (by decide)
      (by simp) (by simp)⟩

/-! ### Claim C9 -/

/-- Claim C9: when one paragraph contains both the long-quote open and close
tokens, `process_long_quote_markers` takes only the open branch on it: only
the open token is removed (the close token is still in the text), the
paragraph is styled, and the region stays open, so every later paragraph up
to the next close token — here, to the end of the document — is styled too. -/
theorem both_tokens_takes_open_branch
    (d : Document) (A : List Paragraph) (pb : Paragraph) (B : List Paragraph)
    (t0 r : List Char)
    (hseq : parasOf d.body = A ++ pb :: B)
    (htext : pb.text = t0 ++ (qOpenTok ++ r))
    (h0 : hasTok qOpenTok t0 = false)
    (hr : hasTok qOpenTok r = false)
    (hclose : hasTok qCloseTok r = true)
    (hB : ∀ q ∈ B, hasTok qCloseTok q.text = false) :
    ((parasOf (process_long_quote_markers d).1.body).drop A.length).head?
        = some (lqStylePara { pb with text := t0 ++ r })
    ∧ hasTok qCloseTok (t0 ++ r) = true
    ∧ (∀ q ∈ (parasOf (process_long_quote_markers d).1.body).drop A.length,
        IsLongQuoteStyled q) := by
  obtain ⟨bA, bB, hb, hpa, hpb⟩ := parasOf_split pb d.body A B hseq
  have hopen : hasTok qOpenTok pb.text = true := by
    rw [htext]
    exact hasTok_eq_true.mpr (infix_append' t0 qOpenTok r)
  have hrm : removeTok qOpenTok pb.text = t0 ++ r := by
    rw [htext,
      removeTok_append qOpenTok qOpenTok_borderless qOpenTok_ne_nil t0 r
        (hasTok_eq_false.mp h0),
      removeTok_eq_of_no_occurrence qOpenTok r (hasTok_eq_false.mp hr)]
  have hout : (process_long_quote_markers d).1.body =
      (lqScan d.styles false d.body).body := rfl
  have hlen : A.length = (parasOf (lqScan d.styles false bA).body).length := by
    rw [parasOf_lqScan_length, hpa]
  have hBb : ∀ q ∈ parasOf bB, hasTok qCloseTok q.text = false := by
    rw [hpb]; exact hB
  have key : parasOf (lqScan d.styles false d.body).body =
      parasOf (lqScan d.styles false bA).body ++
        (lqStylePara { pb with text := t0 ++ r } ::
          parasOf (lqScan
            (updFontSize (lqScan d.styles false bA).styles pb.styleName (Pt 10))
            true bB).body) := by
    rw [hb, lqScan_append]
    simp [lqScan, hopen, apply_long_quote_style, parasOf_append, hrm]
  refine ⟨?_, ?_, ?_⟩
  · rw [hout, key, hlen, List.drop_left]
    rfl
  · have hsuf : r <:+ t0 ++ r := suffix_append t0 r
    exact hasTok_eq_true.mpr ((hasTok_eq_true.mp hclose).trans (List.IsSuffix.isInfix hsuf))
  · intro q hq
    rw [hout, key, hlen, List.drop_left] at hq
    rcases List.mem_cons.mp hq with rfl | hq2
    · exact lqStylePara_styled _
    · exact lqScan_styled_of_flag bB hBb _ q hq2

/-- Concrete paragraph for the C9 witness: open token immediately followed
by the close token in one paragraph. -/
def pbEx9 : Paragraph := { text := qOpenTok ++ qCloseTok }

def dEx9 : Document := { body := [Block.p pbEx9] }

theorem both_tokens_takes_open_branch_witness :
    hasTok qCloseTok pbEx9.text = true ∧
    (((parasOf (process_long_quote_markers dEx9).1.body).drop 0).head?
        = some (lqStylePara { pbEx9 with text := ([] : List Char) ++ qCloseTok })
     ∧ hasTok qCloseTok (([] : List Char) ++ qCloseTok) = true
     ∧ (∀ q ∈ (parasOf (process_long_quote_markers dEx9).1.body).drop 0,
         IsLongQuoteStyled q)) :=
  ⟨by decide,
    both_tokens_takes_open_branch dEx9 [] pbEx9 [] [] qCloseTok rfl rfl
      (by decide) (by decide) (by decide) (by simp)⟩

/-! ### Style-registry lemmas for Claim C1 -/

theorem lookupStyle_updFontSize (n name : List Char) (sz : Length) :
    ∀ ss : List (List Char × Style),
      lookupStyle (updFontSize ss n sz) name =
        (lookupStyle ss name).map fun st =>
          if name = n then { st with fontSize := some sz } else st := by
  intro ss
  induction ss with
  | nil => simp [lookupStyle, updFontSize]
  | cons e ss' ih =>
    have hupd : updFontSize (e :: ss') n sz =
        (if e.1 = n then (e.1, { e.2 with fontSize := some sz }) else e) ::
          updFontSize ss' n sz := by
      simp [updFontSize]
    rw [hupd]
    by_cases he : e.1 = name
    · by_cases hn : e.1 = n
      · have hnn : name = n := by rw [← he, hn]
        simp [lookupStyle, he, hn, hnn]
      · have hnn : ¬ name = n := by rw [← he]; exact hn
        simp [lookupStyle, he, hn, hnn]
    · by_cases hn : e.1 = n
      · have hnn : ¬ n = name := by rw [← hn]; exact he
        simp [lookupStyle, he, hn, hnn, ih]
      · simp [lookupStyle, he, hn, ih]

/-- After three font-size assignments, a style named by any of the three
keys carries the assigned size. -/
theorem fontSize_after_upds (ss : List (List Char × Style)) (n1 n2 n3 name : List Char)
    (sz : Length) (hmem : name = n1 ∨ name = n2 ∨ name = n3)
    (hsome : (lookupStyle ss name).isSome = true) :
    ∃ st, lookupStyle (updFontSize (updFontSize (updFontSize ss n1 sz) n2 sz) n3 sz) name
        = some st ∧ st.fontSize = some sz := by
  obtain ⟨st0, hst0⟩ := Option.isSome_iff_exists.mp hsome
  rw [lookupStyle_updFontSize, lookupStyle_updFontSize, lookupStyle_updFontSize, hst0]
  by_cases e3 : name = n3
  · exact ⟨_, rfl, by simp [e3]⟩
  · by_cases e2 : name = n2
    · exact ⟨_, rfl, by simp [e3, e2]⟩
    · have e1 : name = n1 := by tauto
      exact ⟨_, rfl, by simp [e3, e2, e1]⟩

/-! ### Claim C1 -/

/-- Claim C1: region inclusivity of the long-quotation marker pass. For a
document whose paragraph sequence is `[A, OPEN ++ t1, mid, t2 ++ CLOSE, B]`
(the interior texts free of both tokens), after
`process_long_quote_markers` the three paragraphs at indices 1..3 carry the
long-quote target style — first-line indent 0, left indent 4 cm, right
indent 0, line spacing 1.0, justified, and their styles' font size reduced
to 10pt — their texts no longer contain either token substring, and `A` and
`B` are unchanged. -/
theorem long_quote_region_inclusivity
    (d : Document) (A p1 p2 p3 B5 : Paragraph) (t1 t2 : List Char)
    (hseq : parasOf d.body = [A, p1, p2, p3, B5])
    (hp1 : p1.text = qOpenTok ++ t1)
    (ht1o : hasTok qOpenTok t1 = false) (ht1c : hasTok qCloseTok t1 = false)
    (hp2o : hasTok qOpenTok p2.text = false) (hp2c : hasTok qCloseTok p2.text = false)
    (hp3 : p3.text = t2 ++ qCloseTok)
    (hp3o : hasTok qOpenTok p3.text = false)
    (ht2o : hasTok qOpenTok t2 = false) (ht2c : hasTok qCloseTok t2 = false)
    (hAo : hasTok qOpenTok A.text = false) (hAc : hasTok qCloseTok A.text = false)
    (hBo : hasTok qOpenTok B5.text = false) (hBc : hasTok qCloseTok B5.text = false)
    (hs1 : (lookupStyle d.styles p1.styleName).isSome = true)
    (hs2 : (lookupStyle d.styles p2.styleName).isSome = true)
    (hs3 : (lookupStyle d.styles p3.styleName).isSome = true) :
    parasOf (process_long_quote_markers d).1.body
        = [A, lqStylePara { p1 with text := t1 }, lqStylePara p2,
           lqStylePara { p3 with text := t2 }, B5]
    ∧ (∀ q ∈ parasOf (process_long_quote_markers d).1.body,
        hasTok qOpenTok q.text = false ∧ hasTok qCloseTok q.text = false)
    ∧ (∀ name ∈ [p1.styleName, p2.styleName, p3.styleName],
        ∃ st, lookupStyle (process_long_quote_markers d).1.styles name = some st ∧
          st.fontSize = some (Pt 10)) := by
  obtain ⟨b0, r0, hb0, hq0, hr0⟩ :=
    parasOf_split A d.body [] [p1, p2, p3, B5] (by simpa using hseq)
  obtain ⟨b1, r1, hb1, hq1, hr1⟩ :=
    parasOf_split p1 r0 [] [p2, p3, B5] (by simpa using hr0)
  obtain ⟨b2, r2, hb2, hq2, hr2⟩ :=
    parasOf_split p2 r1 [] [p3, B5] (by simpa using hr1)
  obtain ⟨b3, r3, hb3, hq3, hr3⟩ :=
    parasOf_split p3 r2 [] [B5] (by simpa using hr2)
  obtain ⟨b4, r4, hb4, hq4, hr4⟩ :=
    parasOf_split B5 r3 [] [] (by simpa using hr3)
  have hp1open : hasTok qOpenTok p1.text = true := by
    rw [hp1]
    exact hasTok_eq_true.mpr (List.IsPrefix.isInfix (prefix_append _ _))
  have hp3close : hasTok qCloseTok p3.text = true := by
    rw [hp3]
    exact hasTok_eq_true.mpr (List.IsSuffix.isInfix (suffix_append _ _))
  have hrm1 : removeTok qOpenTok p1.text = t1 := by
    have h := removeTok_append qOpenTok qOpenTok_borderless qOpenTok_ne_nil [] t1 (by decide)
    rw [hp1]
    simpa [removeTok_eq_of_no_occurrence qOpenTok t1 (hasTok_eq_false.mp ht1o)] using h
  have hrm3 : removeTok qCloseTok p3.text = t2 := by
    have h := removeTok_append qCloseTok qCloseTok_borderless qCloseTok_ne_nil t2 []
      (hasTok_eq_false.mp ht2c)
    rw [hp3]
    simpa [removeTok_nil] using h
  have e5 : ∀ ss : List (List Char × Style),
      lqScan ss false (b4 ++ Block.p B5 :: r4) =
        ⟨b4 ++ Block.p B5 :: r4, ss, false, 0⟩ := by
    refine lqScan_id_of_no_tokens _ ?_
    intro q hq
    rw [parasOf_append, hq4] at hq
    simp [hr4] at hq
    subst hq
    exact ⟨hBo, hBc⟩
  have e4 : ∀ (ss : List (List Char × Style)) (f : Bool),
      lqScan ss f (b3 ++ Block.p p3 :: (b4 ++ Block.p B5 :: r4)) =
        ⟨b3 ++ Block.p (lqStylePara { p3 with text := t2 }) :: (b4 ++ Block.p B5 :: r4),
         updFontSize ss p3.styleName (Pt 10), false, 1⟩ := by
    intro ss f
    rw [lqScan_seg_cons b3 hq3, lqScan_cons_close hp3o hp3close, e5]
    simp [hrm3]
  have e3 : ∀ ss : List (List Char × Style),
      lqScan ss true (b2 ++ Block.p p2 :: (b3 ++ Block.p p3 :: (b4 ++ Block.p B5 :: r4))) =
        ⟨b2 ++ Block.p (lqStylePara p2) ::
           (b3 ++ Block.p (lqStylePara { p3 with text := t2 }) :: (b4 ++ Block.p B5 :: r4)),
         updFontSize (updFontSize ss p2.styleName (Pt 10)) p3.styleName (Pt 10),
         false, 2⟩ := by
    intro ss
    rw [lqScan_seg_cons b2 hq2, lqScan_cons_inblock hp2o hp2c, e4]
  have e2 : ∀ (ss : List (List Char × Style)) (f : Bool),
      lqScan ss f (b1 ++ Block.p p1 ::
          (b2 ++ Block.p p2 :: (b3 ++ Block.p p3 :: (b4 ++ Block.p B5 :: r4)))) =
        ⟨b1 ++ Block.p (lqStylePara { p1 with text := t1 }) ::
           (b2 ++ Block.p (lqStylePara p2) ::
             (b3 ++ Block.p (lqStylePara { p3 with text := t2 }) ::
               (b4 ++ Block.p B5 :: r4))),
         updFontSize (updFontSize (updFontSize ss p1.styleName (Pt 10))
           p2.styleName (Pt 10)) p3.styleName (Pt 10),
         false, 3⟩ := by
    intro ss f
    rw [lqScan_seg_cons b1 hq1, lqScan_cons_open hp1open, e3]
    simp [hrm1]
  have hrec : lqScan d.styles false d.body =
      ⟨b0 ++ Block.p A :: (b1 ++ Block.p (lqStylePara { p1 with text := t1 }) ::
        (b2 ++ Block.p (lqStylePara p2) ::
          (b3 ++ Block.p (lqStylePara { p3 with text := t2 }) ::
            (b4 ++ Block.p B5 :: r4)))),
       updFontSize (updFontSize (updFontSize d.styles p1.styleName (Pt 10))
         p2.styleName (Pt 10)) p3.styleName (Pt 10),
       false, 3⟩ := by
    rw [hb0, hb1, hb2, hb3, hb4]
    rw [lqScan_seg_cons b0 hq0, lqScan_cons_skip hAo hAc, e2]
  have hout : (process_long_quote_markers d).1.body =
      (lqScan d.styles false d.body).body := rfl
  have houts : (process_long_quote_markers d).1.styles =
      (lqScan d.styles false d.body).styles := rfl
  have hlist : parasOf (process_long_quote_markers d).1.body
      = [A, lqStylePara { p1 with text := t1 }, lqStylePara p2,
         lqStylePara { p3 with text := t2 }, B5] := by
    rw [hout, hrec]
    simp [parasOf_append, hq0, hq1, hq2, hq3, hq4, hr4]
  refine ⟨hlist, ?_, ?_⟩
  · intro q hq
    rw [hlist] at hq
    simp only [List.mem_cons, List.not_mem_nil, or_false] at hq
    rcases hq with rfl | rfl | rfl | rfl | rfl
    · exact ⟨hAo, hAc⟩
    · exact ⟨by simpa [lqStylePara] using ht1o, by simpa [lqStylePara] using ht1c⟩
    · exact ⟨by simpa [lqStylePara] using hp2o, by simpa [lqStylePara] using hp2c⟩
    · exact ⟨by simpa [lqStylePara] using ht2o, by simpa [lqStylePara] using ht2c⟩
    · exact ⟨hBo, hBc⟩
  · intro name hname
    have hstyles : (process_long_quote_markers d).1.styles =
        updFontSize (updFontSize (updFontSize d.styles p1.styleName (Pt 10))
          p2.styleName (Pt 10)) p3.styleName (Pt 10) := by
      rw [houts, hrec]
    rw [hstyles]
    simp only [List.mem_cons, List.not_mem_nil, or_false] at hname
    rcases hname with rfl | rfl | rfl
    · exact fontSize_after_upds d.styles p1.styleName p2.styleName p3.styleName _
        (Pt 10) (Or.inl rfl) hs1
    · exact fontSize_after_upds d.styles p1.styleName p2.styleName p3.styleName _
        (Pt 10) (Or.inr (Or.inl rfl)) hs2
    · exact fontSize_after_upds d.styles p1.styleName p2.styleName p3.styleName _
        (Pt 10) (Or.inr (Or.inr rfl)) hs3

def pEx1A : Paragraph := { text := "a".toList }

def pEx1o : Paragraph := { text := qOpenTok ++ "x".toList }

def pEx1m : Paragraph := { text := "m".toList }

def pEx1c : Paragraph := { text := "y".toList ++ qCloseTok }

def pEx1B : Paragraph := { text := "b".toList }

def dEx1 : Document :=
  { body := [Block.p pEx1A, Block.p pEx1o, Block.p pEx1m, Block.p pEx1c, Block.p pEx1B] }

theorem long_quote_region_inclusivity_witness :
    hasTok qOpenTok "x".toList = false ∧
    (parasOf (process_long_quote_markers dEx1).1.body
        = [pEx1A, lqStylePara { pEx1o with text := "x".toList }, lqStylePara pEx1m,
           lqStylePara { pEx1c with text := "y".toList }, pEx1B]
     ∧ (∀ q ∈ parasOf (process_long_quote_markers dEx1).1.body,
         hasTok qOpenTok q.text = false ∧ hasTok qCloseTok q.text = false)
     ∧ (∀ name ∈ [pEx1o.styleName, pEx1m.styleName, pEx1c.styleName],
         ∃ st, lookupStyle (process_long_quote_markers dEx1).1.styles name = some st ∧
           st.fontSize = some (Pt 10))) :=
  ⟨by decide,
    long_quote_region_inclusivity dEx1 pEx1A pEx1o pEx1m pEx1c pEx1B
      "x".toList "y".toList rfl rfl (by decide) (by decide) (by decide) (by decide)
      rfl (by decide) (by decide) (by decide) (by decide) (by decide) (by decide)
      (by decide) (by decide) (by decide) (by decide)⟩

/-! ### Blank-line collapse lemmas (Claims C7, C8) -/

theorem reblGo_nil (f : Bool) : reblGo f [] = [] := rfl

theorem reblGo_cons_p (f : Bool) (q : Paragraph) (rest : List Block) :
    reblGo f (Block.p q :: rest) =
      if (f && isBlankPara q) = true then reblGo f rest
      else Block.p q :: reblGo (isBlankPara q) rest := rfl

theorem reblGo_cons_tbl (f : Bool) (t : Table) (rest : List Block) :
    reblGo f (Block.tbl t :: rest) = Block.tbl t :: reblGo f rest := rfl

theorem reblGo_cons_other (f : Bool) (rest : List Block) :
    reblGo f (Block.other :: rest) = Block.other :: reblGo f rest := rfl

/-- If a prefix ends with a non-blank paragraph (and is nonempty whenever the
incoming flag might be on), the collapse pass distributes over the split
point with the flag reset after the prefix. -/
theorem reblGo_split (A : List Block) :
    ∀ (f : Bool) (xs : List Block),
      (A = [] → f = false) →
      (∀ a, A.getLast? = some a → ∃ q, a = Block.p q ∧ isBlankPara q = false) →
      reblGo f (A ++ xs) = reblGo f A ++ reblGo false xs := by
  induction A with
  | nil =>
    intro f xs h0 _
    rw [h0 rfl]
    simp [reblGo_nil]
  | cons b A' ih =>
    intro f xs h0 hlast
    match A' with
    | [] =>
      obtain ⟨q, rfl, hqb⟩ := hlast b (by simp)
      simp [reblGo_cons_p, reblGo_nil, hqb]
    | c :: A'' =>
      have hlast2 : ∀ a, (c :: A'').getLast? = some a →
          ∃ q, a = Block.p q ∧ isBlankPara q = false := by
        intro a ha
        exact hlast a (by rw [List.getLast?_cons_cons]; exact ha)
      have ih2 := fun f2 => ih f2 xs (by simp) hlast2
      match b with
      | Block.p x =>
        rw [List.cons_append, reblGo_cons_p, reblGo_cons_p]
        by_cases hcond : (f && isBlankPara x) = true
        · rw [if_pos hcond, if_pos hcond]
          exact ih2 f
        · rw [if_neg hcond, if_neg hcond, ih2 (isBlankPara x), List.cons_append]
      | Block.tbl t =>
        rw [List.cons_append, reblGo_cons_tbl, reblGo_cons_tbl, ih2 f, List.cons_append]
      | Block.other =>
        rw [List.cons_append, reblGo_cons_other, reblGo_cons_other, ih2 f,
          List.cons_append]

/-- Deleting the second of two adjacent blank paragraphs commutes with the
whole collapse pass: the pass never keeps that second paragraph, whatever
surrounds it. -/
theorem reblGo_delete_second (p q : Paragraph)
    (hp : isBlankPara p = true) (hq : isBlankPara q = true) :
    ∀ (A : List Block) (f : Bool) (B : List Block),
      reblGo f (A ++ Block.p p :: Block.p q :: B) = reblGo f (A ++ Block.p p :: B) := by
  intro A
  induction A with
  | nil =>
    intro f B
    by_cases hf : f = true
    · subst hf
      simp [reblGo_cons_p, hp, hq]
    · have hf' : f = false := by simpa using hf
      subst hf'
      simp [reblGo_cons_p, hp, hq]
  | cons b A' ih =>
    intro f B
    match b with
    | Block.p x =>
      rw [List.cons_append, List.cons_append, reblGo_cons_p, reblGo_cons_p]
      by_cases hcond : (f && isBlankPara x) = true
      · rw [if_pos hcond, if_pos hcond]
        exact ih f B
      · rw [if_neg hcond, if_neg hcond, ih (isBlankPara x) B]
    | Block.tbl t =>
      rw [List.cons_append, List.cons_append, reblGo_cons_tbl, reblGo_cons_tbl, ih f B]
    | Block.other =>
      rw [List.cons_append, List.cons_append, reblGo_cons_other, reblGo_cons_other,
        ih f B]

/-! ### Claim C7 -/

/-- Claim C7: a maximal run of three consecutive blank (empty or
whitespace-only) paragraphs collapses to exactly one: after
`remove_extra_blank_lines` the first paragraph of the run survives and the
two extras are deleted, everything else being processed as usual. -/
theorem blank_run_collapses_to_one
    (d : Document) (A B : List Block) (b1 b2 b3 : Paragraph)
    (hbody : d.body = A ++ Block.p b1 :: Block.p b2 :: Block.p b3 :: B)
    (h1 : isBlankPara b1 = true) (h2 : isBlankPara b2 = true)
    (h3 : isBlankPara b3 = true)
    (hA : ∀ a, A.getLast? = some a → ∃ q, a = Block.p q ∧ isBlankPara q = false) :
    (remove_extra_blank_lines d).body
        = reblGo false A ++ Block.p b1 :: reblGo true B := by
  show reblGo false d.body = _
  rw [hbody, reblGo_split A false _ (fun _ => rfl) hA]
  congr 1
  simp [reblGo_cons_p, h1, h2, h3]

def blankEx7 : Paragraph := { text := [] }

def nonblankEx7 : Paragraph := { text := "a".toList }

def dEx7 : Document :=
  { body := [Block.p nonblankEx7, Block.p blankEx7, Block.p blankEx7, Block.p blankEx7] }

theorem blank_run_collapses_to_one_witness :
    isBlankPara blankEx7 = true ∧
    (remove_extra_blank_lines dEx7).body
        = reblGo false [Block.p nonblankEx7] ++ Block.p blankEx7 :: reblGo true [] :=
  ⟨by decide,
    blank_run_collapses_to_one dEx7 [Block.p nonblankEx7] [] blankEx7 blankEx7 blankEx7
      rfl (by decide) (by decide) (by decide)
      (by
        intro a ha
        simp at ha
        exact ⟨nonblankEx7, ha.symm, by decide⟩)⟩

/-! ### Claim C8 -/

/-- Claim C8 (implicit): the collapse pass judges emptiness by stripped
paragraph text alone, so the second of two adjacent whitespace-only
paragraphs is deleted even when it carries an embedded drawing: the result
is exactly the collapse of the document with that image-bearing paragraph
already removed. -/
theorem blank_drawing_paragraph_deleted
    (d : Document) (A B : List Block) (p q : Paragraph)
    (hbody : d.body = A ++ Block.p p :: Block.p q :: B)
    (hp : isBlankPara p = true) (hq : isBlankPara q = true)
    (hdraw : q.hasDrawing = true) :
    (remove_extra_blank_lines d).body = reblGo false (A ++ Block.p p :: B) := by
  show reblGo false d.body = _
  rw [hbody, reblGo_delete_second p q hp hq A false B]

def blankEx8 : Paragraph := { text := [] }

def imgEx8 : Paragraph := { text := [], hasDrawing := true }

def dEx8 : Document := { body := [Block.p blankEx8, Block.p imgEx8] }

theorem blank_drawing_paragraph_deleted_witness :
    imgEx8.hasDrawing = true ∧
    (remove_extra_blank_lines dEx8).body = reblGo false [Block.p blankEx8] :=
  ⟨by decide,
    blank_drawing_paragraph_deleted dEx8 [] [] blankEx8 imgEx8 rfl
      (by decide) (by decide) (by decide)⟩

/-! ### Claim C6 -/

/-- The three whole-document property passes run in pipeline order with one
shared configuration (the composite that Claim C6 is about). -/
def propertyPasses (top left right bottom : ℚ) (fontName : List Char)
    (fontSizePt lineSpacing indentCm : ℚ) (justify : Bool) (indentCm2 : ℚ)
    (d : Document) : Document :=
  style_all_paragraphs
    (configure_default_style (set_page_margins d top left right bottom)
      fontName fontSizePt lineSpacing indentCm)
    justify indentCm2

theorem map_idem {α : Type} (f : α → α) (hf : ∀ a, f (f a) = f a) :
    ∀ l : List α, (l.map f).map f = l.map f := by
  intro l
  induction l with
  | nil => rfl
  | cons a l' ih => simp [hf, ih]

theorem setMarginsSec_idem (top left right bottom : ℚ) (s : Section) :
    setMarginsSec top left right bottom (setMarginsSec top left right bottom s)
      = setMarginsSec top left right bottom s := rfl

theorem cfgNormalEntry_idem (fn : List Char) (fs ls ic : ℚ) :
    ∀ e : List Char × Style,
      cfgNormalEntry fn fs ls ic (cfgNormalEntry fn fs ls ic e)
        = cfgNormalEntry fn fs ls ic e := by
  rintro ⟨k, st⟩
  by_cases he : k = normalKey
  · simp [cfgNormalEntry, he]
  · simp [cfgNormalEntry, he]

theorem styleParaStep_idem (justify : Bool) (ind : ℚ) (p : Paragraph) :
    styleParaStep justify ind (styleParaStep justify ind p)
      = styleParaStep justify ind p := by
  by_cases hh : isHeadingName p.styleName = true
  · simp [styleParaStep, hh]
  · have hh' : isHeadingName p.styleName = false := by simpa using hh
    by_cases hj : justify = true
    · simp [styleParaStep, hh', hj]
    · have hj' : justify = false := by simpa using hj
      simp [styleParaStep, hh', hj']

theorem mapParas_nil (f : Paragraph → Paragraph) : mapParas f [] = [] := rfl

theorem mapParas_cons_p (f : Paragraph → Paragraph) (p : Paragraph) (rest : List Block) :
    mapParas f (Block.p p :: rest) = Block.p (f p) :: mapParas f rest := rfl

theorem mapParas_cons_tbl (f : Paragraph → Paragraph) (t : Table) (rest : List Block) :
    mapParas f (Block.tbl t :: rest) = Block.tbl t :: mapParas f rest := rfl

theorem mapParas_cons_other (f : Paragraph → Paragraph) (rest : List Block) :
    mapParas f (Block.other :: rest) = Block.other :: mapParas f rest := rfl

theorem mapParas_idem (f : Paragraph → Paragraph) (hf : ∀ p, f (f p) = f p) :
    ∀ body : List Block, mapParas f (mapParas f body) = mapParas f body := by
  intro body
  induction body with
  | nil => rfl
  | cons b rest ih =>
    match b with
    | Block.p p => rw [mapParas_cons_p, mapParas_cons_p, hf, ih]
    | Block.tbl t => rw [mapParas_cons_tbl, mapParas_cons_tbl, ih]
    | Block.other => rw [mapParas_cons_other, mapParas_cons_other, ih]

/-- Claim C6: running `set_page_margins`, `configure_default_style` and
`style_all_paragraphs` twice in succession (same configuration) leaves every
section margin, default-style property and paragraph formatting record equal
to the state after running them once — the passes assign properties, they do
not accumulate. -/
theorem property_passes_idempotent (top left right bottom : ℚ) (fn : List Char)
    (fs ls ic : ℚ) (j : Bool) (ic2 : ℚ) (d : Document) :
    propertyPasses top left right bottom fn fs ls ic j ic2
        (propertyPasses top left right bottom fn fs ls ic j ic2 d)
      = propertyPasses top left right bottom fn fs ls ic j ic2 d := by
  simp only [propertyPasses, set_page_margins, configure_default_style,
    style_all_paragraphs]
  simp [map_idem _ (setMarginsSec_idem top left right bottom),
    map_idem _ (cfgNormalEntry_idem fn fs ls ic),
    mapParas_idem _ (styleParaStep_idem j ic2)]

/-! ### Claim C3 -/

theorem hardenRows_cantSplit_pos :
    ∀ (rows : List Row) (i : Nat), ∀ r ∈ hardenRows i rows, 0 < r.cantSplit := by
  intro rows
  induction rows with
  | nil => intro i r hr; simp [hardenRows] at hr
  | cons r0 rest ih =>
    intro i r hr
    simp only [hardenRows, List.mem_cons] at hr
    rcases hr with rfl | hr
    · by_cases hi : i = 0
      · simp [hi, set_row_cant_split]
      · simp [hi, set_row_cant_split]
    · exact ih (i + 1) r hr

theorem hardenRows_header_zero :
    ∀ (rows : List Row), (∀ r ∈ rows, r.tblHeader = 0) →
      ∀ i : Nat, 1 ≤ i → ∀ r ∈ hardenRows i rows, r.tblHeader = 0 := by
  intro rows
  induction rows with
  | nil => intro _ i _ r hr; simp [hardenRows] at hr
  | cons r0 rest ih =>
    intro h i hi r hr
    simp only [hardenRows, List.mem_cons] at hr
    rcases hr with rfl | hr
    · have hi0 : ¬ i = 0 := by omega
      simp [hi0, set_row_cant_split]
      exact h r0 (by simp)
    · exact ih (fun q hq => h q (by simp [hq])) (i + 1) (by omega) r hr

/-- Counterexample to Claim C3 as stated: a two-row table whose second row
already carries a repeat-header element. `prevent_table_row_split_and_repeat_header`
only appends properties and never clears one, so after hardening row 1 still
has the repeat-header property, contradicting "rows 1..R-1 do not have it". -/
def tEx3 : Table := { rows := [{ cantSplit := 0, tblHeader := 0 },
                               { cantSplit := 0, tblHeader := 1 }] }

theorem header_repeat_invariant_counterexample :
    ¬ (∀ r ∈ ((prevent_table_row_split_and_repeat_header tEx3).rows).drop 1,
        r.tblHeader = 0) := by
  decide

/-- Claim C3 (amended): for a table with R ≥ 1 rows *none of whose rows past
row 0 initially carries the repeat-header property*, after
`prevent_table_row_split_and_repeat_header` row 0 has the repeat-header
property set, rows 1..R-1 do not, and every row has the cannot-split
property set. (The amendment is forced: the function only appends
properties, so a pre-existing repeat-header element on a later row
survives.) -/
theorem header_repeat_invariant_amended
    (t : Table) (hR : 1 ≤ t.rows.length)
    (hclean : ∀ r ∈ t.rows.drop 1, r.tblHeader = 0) :
    (∀ r0, ((prevent_table_row_split_and_repeat_header t).rows).head? = some r0 →
        0 < r0.tblHeader)
    ∧ (∀ r ∈ ((prevent_table_row_split_and_repeat_header t).rows).drop 1,
        r.tblHeader = 0)
    ∧ (∀ r ∈ (prevent_table_row_split_and_repeat_header t).rows, 0 < r.cantSplit) := by
  match hrows : t.rows with
  | [] => rw [hrows] at hR; simp at hR
  | r0 :: rest =>
    have hrest : ∀ r ∈ rest, r.tblHeader = 0 := by
      intro r hr
      exact hclean r (by rw [hrows]; simpa using hr)
    refine ⟨?_, ?_, ?_⟩
    · intro q hq
      rw [prevent_table_row_split_and_repeat_header, hrows] at hq
      simp only [hardenRows, List.head?_cons, Option.some.injEq] at hq
      subst hq
      simp [set_row_cant_split]
    · intro r hr
      rw [prevent_table_row_split_and_repeat_header, hrows] at hr
      simp only [hardenRows] at hr
      simp only [List.drop_succ_cons, List.drop_zero] at hr
      exact hardenRows_header_zero rest hrest 1 (by omega) r hr
    · intro r hr
      rw [prevent_table_row_split_and_repeat_header] at hr
      exact hardenRows_cantSplit_pos t.rows 0 r hr

def tEx3w : Table := { rows := [{ cantSplit := 0, tblHeader := 0 },
                                { cantSplit := 0, tblHeader := 0 }] }

theorem header_repeat_invariant_amended_witness :
    1 ≤ tEx3w.rows.length ∧
    ((∀ r0, ((prevent_table_row_split_and_repeat_header tEx3w).rows).head? = some r0 →
        0 < r0.tblHeader)
     ∧ (∀ r ∈ ((prevent_table_row_split_and_repeat_header tEx3w).rows).drop 1,
         r.tblHeader = 0)
     ∧ (∀ r ∈ (prevent_table_row_split_and_repeat_header tEx3w).rows, 0 < r.cantSplit)) :=
  ⟨by decide, header_repeat_invariant_amended tEx3w (by decide) (by decide)⟩

/-! ### Claim C2 -/

/-- A body holding one image-bearing paragraph. -/
def dEx2img : Document := { body := [Block.p { text := [], hasDrawing := true }] }

/-- A body holding one table and no paragraph at all. -/
def dEx2tbl : Document := { body := [Block.tbl { rows := [{}] }] }

/-- Claim C2 is a code bug: with both caption flags enabled the structural
walk does not generate the claimed captions but raises. On a body with an
image-bearing paragraph, `add_caption_after_paragraph` calls
`Paragraph.insert_paragraph_after`, a method python-docx does not provide,
so the pass dies with `AttributeError` (first conjunct); on a body with a
table and no paragraph, `doc.paragraphs[0]` raises `IndexError` (second
conjunct). In both cases the walk aborts instead of producing N figure
captions and M caption pairs. -/
theorem ensure_captions_raises_instead_of_inserting :
    ensure_captions dEx2img true true = none ∧
    ensure_captions dEx2tbl true true = none := by
  constructor
  · rfl
  · rfl

/-! ### Claim C10: tables through the pipeline -/

theorem tablesOf_mapParas (f : Paragraph → Paragraph) :
    ∀ body : List Block, tablesOf (mapParas f body) = tablesOf body := by
  intro body
  induction body with
  | nil => rfl
  | cons b rest ih =>
    match b with
    | Block.p p => rw [mapParas_cons_p, tablesOf_cons_p, tablesOf_cons_p, ih]
    | Block.tbl t => rw [mapParas_cons_tbl, tablesOf_cons_tbl, tablesOf_cons_tbl, ih]
    | Block.other => rw [mapParas_cons_other, tablesOf_cons_other, tablesOf_cons_other, ih]

theorem tablesOf_hardenTablesBody :
    ∀ body : List Block,
      tablesOf (hardenTablesBody body)
        = (tablesOf body).map prevent_table_row_split_and_repeat_header := by
  intro body
  induction body with
  | nil => rfl
  | cons b rest ih =>
    match b with
    | Block.p p => simpa [hardenTablesBody] using ih
    | Block.tbl t => simpa [hardenTablesBody] using ih
    | Block.other => simpa [hardenTablesBody] using ih

theorem tablesOf_lqScan :
    ∀ (body : List Block) (ss : List (List Char × Style)) (f : Bool),
      tablesOf (lqScan ss f body).body = tablesOf body := by
  intro body
  induction body with
  | nil => intro ss f; rfl
  | cons b rest ih =>
    intro ss f
    match b with
    | Block.p para =>
      by_cases h1 : hasTok qOpenTok para.text
      · simp [lqScan, h1, ih]
      · by_cases h2 : hasTok qCloseTok para.text
        · simp [lqScan, h1, h2, ih]
        · by_cases h3 : f
          · simp [lqScan, h1, h2, h3, ih]
          · simp [lqScan, h1, h2, h3, ih]
    | Block.tbl t => simp [lqScan, ih]
    | Block.other => simp [lqScan, ih]

theorem tablesOf_refsScan (hang ls sa : ℚ) :
    ∀ (body : List Block) (f : Bool),
      tablesOf (refsScan hang ls sa f body).body = tablesOf body := by
  intro body
  induction body with
  | nil => intro f; rfl
  | cons b rest ih =>
    intro f
    match b with
    | Block.p para =>
      by_cases h1 : hasTok rOpenTok para.text
      · simp [refsScan, h1, ih]
      · by_cases h2 : hasTok rCloseTok para.text
        · simp [refsScan, h1, h2, ih]
        · by_cases h3 : f
          · simp [refsScan, h1, h2, h3, ih]
          · simp [refsScan, h1, h2, h3, ih]
    | Block.tbl tb => simp [refsScan, ih]
    | Block.other => simp [refsScan, ih]

theorem tablesOf_reblGo :
    ∀ (body : List Block) (f : Bool), tablesOf (reblGo f body) = tablesOf body := by
  intro body
  induction body with
  | nil => intro f; rfl
  | cons b rest ih =>
    intro f
    match b with
    | Block.p q =>
      rw [reblGo_cons_p]
      by_cases hc : (f && isBlankPara q) = true
      · rw [if_pos hc, ih, tablesOf_cons_p]
      · rw [if_neg hc, tablesOf_cons_p, tablesOf_cons_p, ih]
    | Block.tbl t => rw [reblGo_cons_tbl, tablesOf_cons_tbl, tablesOf_cons_tbl, ih]
    | Block.other => rw [reblGo_cons_other, tablesOf_cons_other, tablesOf_cons_other, ih]

theorem tablesOf_ensureCaptionsGo (figF tabF hasPara : Bool) :
    ∀ (body out : List Block), ensureCaptionsGo figF tabF hasPara body = some out →
      tablesOf out = (tablesOf body).map prevent_table_row_split_and_repeat_header := by
  intro body
  induction body with
  | nil =>
    intro out h
    simp [ensureCaptionsGo] at h
    subst h
    rfl
  | cons b rest ih =>
    intro out h
    match b with
    | Block.p para =>
      by_cases hd : (para.hasDrawing && figF) = true
      · simp [ensureCaptionsGo, hd] at h
      · rw [show ensureCaptionsGo figF tabF hasPara (Block.p para :: rest)
            = (ensureCaptionsGo figF tabF hasPara rest).map fun r => Block.p para :: r by
              simp [ensureCaptionsGo, hd]] at h
        cases hrec : ensureCaptionsGo figF tabF hasPara rest with
        | none => rw [hrec] at h; simp at h
        | some r =>
          rw [hrec] at h
          simp at h
          subst h
          rw [tablesOf_cons_p, tablesOf_cons_p, ih r hrec]
    | Block.tbl t =>
      by_cases ht : tabF = true
      · by_cases hp : hasPara = true
        · rw [show ensureCaptionsGo figF tabF hasPara (Block.tbl t :: rest)
              = (ensureCaptionsGo figF tabF hasPara rest).map fun r =>
                  Block.other :: Block.tbl (prevent_table_row_split_and_repeat_header t) ::
                    Block.other :: r by
                simp [ensureCaptionsGo, ht, hp]] at h
          cases hrec : ensureCaptionsGo figF tabF hasPara rest with
          | none => rw [hrec] at h; simp at h
          | some r =>
            rw [hrec] at h
            simp at h
            subst h
            rw [tablesOf_cons_other, tablesOf_cons_tbl, tablesOf_cons_other,
              tablesOf_cons_tbl, ih r hrec, List.map_cons]
        · simp [ensureCaptionsGo, ht, hp] at h
      · have ht' : tabF = false := by simpa using ht
        rw [show ensureCaptionsGo figF tabF hasPara (Block.tbl t :: rest)
            = (ensureCaptionsGo figF tabF hasPara rest).map fun r =>
                Block.tbl (prevent_table_row_split_and_repeat_header t) :: r by
              simp [ensureCaptionsGo, ht']] at h
        cases hrec : ensureCaptionsGo figF tabF hasPara rest with
        | none => rw [hrec] at h; simp at h
        | some r =>
          rw [hrec] at h
          simp at h
          subst h
          rw [tablesOf_cons_tbl, tablesOf_cons_tbl, ih r hrec, List.map_cons]
    | Block.other =>
      rw [show ensureCaptionsGo figF tabF hasPara (Block.other :: rest)
          = (ensureCaptionsGo figF tabF hasPara rest).map fun r => Block.other :: r by
            simp [ensureCaptionsGo]] at h
      cases hrec : ensureCaptionsGo figF tabF hasPara rest with
      | none => rw [hrec] at h; simp at h
      | some r =>
        rw [hrec] at h
        simp at h
        subst h
        rw [tablesOf_cons_other, tablesOf_cons_other, ih r hrec]

theorem tablesOf_remove_extra_blank_lines (x : Document) :
    tablesOf (remove_extra_blank_lines x).body = tablesOf x.body :=
  tablesOf_reblGo x.body false

theorem tablesOf_add_page_number (x : Document) (pos : List Char) :
    tablesOf (add_page_number_to_footer x pos).body = tablesOf x.body := rfl

theorem tablesOf_refs_doc (x : Document) (hang ls sa : ℚ) :
    tablesOf (apply_references_block_format x hang ls sa).1.body = tablesOf x.body :=
  tablesOf_refsScan hang ls sa x.body false

theorem tablesOf_lq_doc (x : Document) :
    tablesOf (process_long_quote_markers x).1.body = tablesOf x.body :=
  tablesOf_lqScan x.body x.styles false

theorem tablesOf_center_doc (x : Document) :
    tablesOf (center_paragraphs_with_drawings x).body = tablesOf x.body :=
  tablesOf_mapParas centerDrawingStep x.body

theorem tablesOf_heading_doc (x : Document) (h1 h2 h3 : Bool) :
    tablesOf (configure_heading_styles x h1 h2 h3).body = tablesOf x.body :=
  tablesOf_mapParas (headingCapsStep h1 h2 h3) x.body

theorem tablesOf_sap_doc (x : Document) (j : Bool) (ic : ℚ) :
    tablesOf (style_all_paragraphs x j ic).body = tablesOf x.body :=
  tablesOf_mapParas (styleParaStep j ic) x.body

theorem tablesOf_cds_doc (x : Document) (fn : List Char) (fs ls ic : ℚ) :
    tablesOf (configure_default_style x fn fs ls ic).body = tablesOf x.body := rfl

theorem tablesOf_margins_doc (x : Document) (t l r b : ℚ) :
    tablesOf (set_page_margins x t l r b).body = tablesOf x.body := rfl

theorem hardenRows_cantSplit_succ :
    ∀ (rows : List Row) (i n : Nat), (∀ r ∈ rows, r.cantSplit = n) →
      ∀ r ∈ hardenRows i rows, r.cantSplit = n + 1 := by
  intro rows
  induction rows with
  | nil => intro i n _ r hr; simp [hardenRows] at hr
  | cons r0 rest ih =>
    intro i n h r hr
    simp only [hardenRows, List.mem_cons] at hr
    rcases hr with rfl | hr
    · have h0 := h r0 (by simp)
      by_cases hi : i = 0
      · simp [hi, set_row_cant_split, h0]
      · simp [hi, set_row_cant_split, h0]
    · exact ih (i + 1) n (fun q hq => h q (by simp [hq])) r hr

/-- Hardening twice on an initially clean table gives every row two
cannot-split children and the first row two repeat-header children. -/
theorem double_harden_rows (t0 : Table)
    (hc : ∀ r ∈ t0.rows, r.cantSplit = 0 ∧ r.tblHeader = 0) :
    (∀ r ∈ (prevent_table_row_split_and_repeat_header
        (prevent_table_row_split_and_repeat_header t0)).rows, r.cantSplit = 2)
    ∧ (∀ r0, (prevent_table_row_split_and_repeat_header
        (prevent_table_row_split_and_repeat_header t0)).rows.head? = some r0 →
        r0.tblHeader = 2) := by
  constructor
  · intro r hr
    have h1 : ∀ r ∈ hardenRows 0 t0.rows, r.cantSplit = 1 :=
      hardenRows_cantSplit_succ t0.rows 0 0 (fun q hq => (hc q hq).1)
    have h2 := hardenRows_cantSplit_succ (hardenRows 0 t0.rows) 0 1 h1
    exact h2 r (by simpa [prevent_table_row_split_and_repeat_header] using hr)
  · intro r0 hr0
    match hrows : t0.rows with
    | [] =>
      rw [prevent_table_row_split_and_repeat_header,
        prevent_table_row_split_and_repeat_header, hrows] at hr0
      simp [hardenRows] at hr0
    | r :: rest =>
      have hr := hc r (by rw [hrows]; simp)
      rw [prevent_table_row_split_and_repeat_header,
        prevent_table_row_split_and_repeat_header, hrows] at hr0
      simp only [hardenRows, set_row_cant_split, List.head?_cons,
        Option.some.injEq] at hr0
      subst hr0
      simp
      omega

/-- Claim C10 (implicit): `apply_abnt_formatting` hardens every table twice —
once in its explicit `for t in doc.tables` loop and once again inside
`ensure_captions` — and each hardening appends fresh elements without
checking for existing ones, so whenever the pipeline completes on a document
whose table rows start clean, every row of every output table holds two
cannot-split children and each first row holds two repeat-header children:
the hardening is not idempotent on the element tree. -/
theorem apply_abnt_formatting_double_hardening
    (d : Document) (h1 h2 h3 justify footerNums : Bool) (indentCm : ℚ)
    (centerImgs figF tabF refsF : Bool) (d' : Document)
    (hclean : ∀ t ∈ tablesOf d.body, ∀ r ∈ t.rows, r.cantSplit = 0 ∧ r.tblHeader = 0)
    (hrun : apply_abnt_formatting d h1 h2 h3 justify footerNums indentCm
        centerImgs figF tabF refsF = some d') :
    ∀ t ∈ tablesOf d'.body,
      (∀ r ∈ t.rows, r.cantSplit = 2)
      ∧ (∀ r0, t.rows.head? = some r0 → r0.tblHeader = 2) := by
  simp only [apply_abnt_formatting] at hrun
  split at hrun
  · exact absurd hrun (by simp)
  · next d7 heq =>
    simp only [Option.some.injEq] at hrun
    subst hrun
    rw [ensure_captions] at heq
    rcases Option.map_eq_some'.mp heq with ⟨out, hgo, hd7⟩
    have htab7 : tablesOf d7.body
        = ((tablesOf d.body).map prevent_table_row_split_and_repeat_header).map
            prevent_table_row_split_and_repeat_header := by
      have hout := tablesOf_ensureCaptionsGo figF tabF _ _ out hgo
      rw [← hd7]
      show tablesOf out
          = ((tablesOf d.body).map prevent_table_row_split_and_repeat_header).map
              prevent_table_row_split_and_repeat_header
      rw [hout]
      by_cases hci : centerImgs = true
      · simp [hci, tablesOf_hardenTablesBody, tablesOf_center_doc,
          tablesOf_heading_doc, tablesOf_sap_doc, tablesOf_cds_doc,
          tablesOf_margins_doc]
      · simp [hci, tablesOf_hardenTablesBody, tablesOf_heading_doc,
          tablesOf_sap_doc, tablesOf_cds_doc, tablesOf_margins_doc]
    intro t ht
    have hchain : ∀ x : Document, tablesOf (remove_extra_blank_lines
        (if footerNums then
          add_page_number_to_footer
            (if refsF then (apply_references_block_format
                (process_long_quote_markers x).1 fiveQuarters 1 6).1
             else (process_long_quote_markers x).1) "right".toList
         else
          (if refsF then (apply_references_block_format
              (process_long_quote_markers x).1 fiveQuarters 1 6).1
           else (process_long_quote_markers x).1))).body = tablesOf x.body := by
      intro x
      by_cases hfn : footerNums = true
      · by_cases hrf : refsF = true
        · simp [hfn, hrf, tablesOf_remove_extra_blank_lines,
            tablesOf_add_page_number, tablesOf_refs_doc, tablesOf_lq_doc]
        · simp [hfn, hrf, tablesOf_remove_extra_blank_lines,
            tablesOf_add_page_number, tablesOf_lq_doc]
      · by_cases hrf : refsF = true
        · simp [hfn, hrf, tablesOf_remove_extra_blank_lines, tablesOf_refs_doc,
            tablesOf_lq_doc]
        · simp [hfn, hrf, tablesOf_remove_extra_blank_lines, tablesOf_lq_doc]
    rw [hchain d7, htab7] at ht
    rcases List.mem_map.mp ht with ⟨t1, ht1, rfl⟩
    rcases List.mem_map.mp ht1 with ⟨t0, ht0, rfl⟩
    exact double_harden_rows t0 (hclean t0 ht0)

def dEx10 : Document :=
  { body := [Block.p { text := "a".toList }, Block.tbl { rows := [{}] }] }

def dEx10' : Document :=
  (apply_abnt_formatting dEx10 true true true true true 1 true true true
      true).getD { body := [] }

theorem apply_abnt_formatting_double_hardening_witness :
    (∀ t ∈ tablesOf dEx10.body, ∀ r ∈ t.rows, r.cantSplit = 0 ∧ r.tblHeader = 0) ∧
    (∀ t ∈ tablesOf dEx10'.body,
      (∀ r ∈ t.rows, r.cantSplit = 2)
      ∧ (∀ r0, t.rows.head? = some r0 → r0.tblHeader = 2)) :=
  ⟨by decide,
    apply_abnt_formatting_double_hardening dEx10 true true true true true 1
      true true true true dEx10' (by decide) (by decide)⟩

end ABNT
